import Mathlib

/-!
hpp-constraints: masked symbolic functions, the hybrid solver, explicit functions
and the configuration constraint.

A shallow embedding of

* `SymbolicFunction` (`include/hpp/_constraints/symbolic-function.hh`): its two
  `create` factories, its constructor, `impl_compute` and `impl_jacobian`;
* `HybridSolver` (`src/hybrid-solver.cc`): `explicitSolverHasChanged` and
  `updateJacobian`;
* `explicit_::Function` (`include/hpp/constraints/explicit/function.hh`): the
  structs `GenericGData` and `IdentityData`, and `impl_compute` and
  `impl_jacobian` as the header and the specification describe them;
* `ConfigurationConstraint` (`src/configuration-constraint.cc`): its two `create`
  factories, its constructor, `impl_compute` and `impl_jacobian`.

Vectors are lists of scalars.  The Jacobians of `SymbolicFunction` are lists of
rows; the matrices of the solver, of the explicit functions and of the
configuration constraint carry their sizes and their coefficients.  An Eigen
access outside the bounds of a buffer, an assignment between rows or matrices of
different sizes and a failed `assert` have no result: the embedded operation
returns `none`.  Scalars are the elements of a semiring, ring or ordered field.
-/

set_option autoImplicit false

namespace hpp

/-! ## Kinematics provider and expression nodes -/

/-- Modelled from the spec: the Kinematics Provider (`Device`, declared in
`hpp/model/device.hh`, which is not part of the sources at hand).  It stores the
current configuration and the kinematic data (placements, centre of mass and
their Jacobians) obtained from it by the last `computeForwardKinematics`. -/
structure Device (Config K : Type) where
  configSize : Nat
  numberDof : Nat
  forwardKinematics : Config → K
  currentConfiguration_ : Config
  data : K

namespace Device

variable {Config K : Type}

/-- Setter `robot->currentConfiguration (q)`. -/
def currentConfiguration (d : Device Config K) (q : Config) : Device Config K :=
  { d with currentConfiguration_ := q }

/-- Call `robot->computeForwardKinematics ()`: recompute the kinematic data for
the stored configuration. -/
def computeForwardKinematics (d : Device Config K) : Device Config K :=
  { d with data := d.forwardKinematics d.currentConfiguration_ }

end Device

/-- Modelled from the spec: an Expression Node of the composite expression
framework (`hpp/_constraints/symbolic-calculus.hh`, not part of the sources at
hand).  Every node holds its "computed" flags and its cached value and
Jacobian.  Leaves (point in frame, centre of mass) read the kinematic data;
inner nodes (scalar or rotation multiply; sum, difference, cross product)
combine what their children cached. -/
inductive Expr (K α : Type) where
  | leaf (vValid jValid : Bool) (value : List α) (jacobian : List (List α))
      (queryValue : K → List α) (queryJacobian : K → List (List α))
  | unary (vValid jValid : Bool) (value : List α) (jacobian : List (List α))
      (combineValue : K → List α → List α)
      (combineJacobian : K → List α → List (List α) → List (List α))
      (child : Expr K α)
  | binary (vValid jValid : Bool) (value : List α) (jacobian : List (List α))
      (combineValue : K → List α → List α → List α)
      (combineJacobian :
        K → List α → List α → List (List α) → List (List α) → List (List α))
      (lhs rhs : Expr K α)

namespace Expr

variable {K α : Type}

/-- Accessor `expr->value ()`: the cached value. -/
def value : Expr K α → List α
  | leaf _ _ v _ _ _ => v
  | unary _ _ v _ _ _ _ => v
  | binary _ _ v _ _ _ _ _ => v

/-- Accessor `expr->jacobian ()`: the cached Jacobian. -/
def jacobian : Expr K α → List (List α)
  | leaf _ _ _ j _ _ => j
  | unary _ _ _ j _ _ _ => j
  | binary _ _ _ j _ _ _ _ => j

/-- The value-computed flag of the root. -/
def vValid : Expr K α → Bool
  | leaf v _ _ _ _ _ => v
  | unary v _ _ _ _ _ _ => v
  | binary v _ _ _ _ _ _ _ => v

/-- The Jacobian-computed flag of the root. -/
def jValid : Expr K α → Bool
  | leaf _ j _ _ _ _ => j
  | unary _ j _ _ _ _ _ => j
  | binary _ j _ _ _ _ _ _ => j

/-- Method `invalidate ()`: mark the node and, recursively, its children as not
yet computed; nothing is recomputed. -/
def invalidate : Expr K α → Expr K α
  | leaf _ _ v j qv qj => leaf false false v j qv qj
  | unary _ _ v j cv cj c => unary false false v j cv cj c.invalidate
  | binary _ _ v j cv cj l r => binary false false v j cv cj l.invalidate r.invalidate

/-- Method `computeValue ()`: a node already computed keeps its cache; otherwise
the children are computed first and their values combined. -/
def computeValue (k : K) : Expr K α → Expr K α
  | leaf vv jv v j qv qj =>
      if vv then leaf vv jv v j qv qj else leaf true jv (qv k) j qv qj
  | unary vv jv v j cv cj c =>
      if vv then unary vv jv v j cv cj c
      else
        let c1 := c.computeValue k
        unary true jv (cv k c1.value) j cv cj c1
  | binary vv jv v j cv cj l r =>
      if vv then binary vv jv v j cv cj l r
      else
        let l1 := l.computeValue k
        let r1 := r.computeValue k
        binary true jv (cv k l1.value r1.value) j cv cj l1 r1

/-- Method `computeJacobian ()`: a node already computed keeps its cache;
otherwise the children's Jacobians and values are computed first and
combined. -/
def computeJacobian (k : K) : Expr K α → Expr K α
  | leaf vv jv v j qv qj =>
      if jv then leaf vv jv v j qv qj else leaf vv true v (qj k) qv qj
  | unary vv jv v j cv cj c =>
      if jv then unary vv jv v j cv cj c
      else
        let c1 := (c.computeJacobian k).computeValue k
        unary vv true v (cj k c1.value c1.jacobian) cv cj c1
  | binary vv jv v j cv cj l r =>
      if jv then binary vv jv v j cv cj l r
      else
        let l1 := (l.computeJacobian k).computeValue k
        let r1 := (r.computeJacobian k).computeValue k
        binary vv true v (cj k l1.value r1.value l1.jacobian r1.jacobian) cv cj l1 r1

/-- The value the expression denotes for kinematic data `k`, whatever is cached. -/
def valueOf (k : K) : Expr K α → List α
  | leaf _ _ _ _ qv _ => qv k
  | unary _ _ _ _ cv _ c => cv k (c.valueOf k)
  | binary _ _ _ _ cv _ l r => cv k (l.valueOf k) (r.valueOf k)

/-- The Jacobian the expression denotes for kinematic data `k`, whatever is
cached. -/
def jacobianOf (k : K) : Expr K α → List (List α)
  | leaf _ _ _ _ _ qj => qj k
  | unary _ _ _ _ _ cj c => cj k (c.valueOf k) (c.jacobianOf k)
  | binary _ _ _ _ _ cj l r =>
      cj k (l.valueOf k) (r.valueOf k) (l.jacobianOf k) (r.jacobianOf k)

/-- Every cache marked as computed holds what the node denotes for `k`. -/
def Fresh (k : K) : Expr K α → Prop
  | leaf vv jv v j qv qj => (vv = true → v = qv k) ∧ (jv = true → j = qj k)
  | unary vv jv v j cv cj c =>
      (vv = true → v = cv k (c.valueOf k)) ∧
      (jv = true → j = cj k (c.valueOf k) (c.jacobianOf k)) ∧ c.Fresh k
  | binary vv jv v j cv cj l r =>
      (vv = true → v = cv k (l.valueOf k) (r.valueOf k)) ∧
      (jv = true →
        j = cj k (l.valueOf k) (r.valueOf k) (l.jacobianOf k) (r.jacobianOf k)) ∧
      l.Fresh k ∧ r.Fresh k

end Expr

/-! ## SymbolicFunction -/

/-- The loop shared by `impl_compute` and `impl_jacobian`:
`for (i = 0; i < mask_.size (); i++) if (mask_[i]) dst[index++] = src[i];`
entered at position `i` with the rest of the mask still to visit.  `fits old v`
tells whether `v` may be assigned over `old` (always for a scalar, equal
lengths for a row). -/
def copyLoop {β : Type} (fits : β → β → Bool) (src : List β) :
    List Bool → Nat → Nat → List β → Option (List β)
  | [], _, _, dst => some dst
  | false :: ms, i, index, dst => copyLoop fits src ms (i + 1) index dst
  | true :: ms, i, index, dst =>
      match src[i]?, dst[index]? with
      | some v, some old =>
          if fits old v then copyLoop fits src ms (i + 1) (index + 1) (dst.set index v)
          else none
      | _, _ => none

/-- Scalars are assigned without any size condition. -/
def fitsScalar {α : Type} (_ _ : α) : Bool := true

/-- A row is assigned over a row of the same number of columns. -/
def fitsRow {α : Type} (old v : List α) : Bool := old.length == v.length

/-- The class `SymbolicFunction<Expression>`, with the sizes and the name kept by
its base `DifferentiableFunction`.  The robot and the expression are shared
objects the function reads and updates when it is evaluated. -/
structure SymbolicFunction (Config K α : Type) where
  inputSize : Nat
  inputDerivativeSize : Nat
  outputSize : Nat
  name : String
  robot_ : Device Config K
  expr_ : Expr K α
  mask_ : List Bool

namespace SymbolicFunction

variable {Config K α : Type}

/-- The public constructor: the base class is given `robot->configSize ()`,
`robot->numberDof ()` and `expr->value ().size ()`; the mask is stored as it is
received. -/
def new (name : String) (robot : Device Config K) (expr : Expr K α)
    (mask : List Bool) : SymbolicFunction Config K α :=
  { inputSize := robot.configSize
    inputDerivativeSize := robot.numberDof
    outputSize := expr.value.length
    name := name
    robot_ := robot
    expr_ := expr
    mask_ := mask }

/-- Factory `create (name, robot, expr, mask)`: asserts that the mask is as long
as the value of the expression, then constructs. -/
def create (name : String) (robot : Device Config K) (expr : Expr K α)
    (mask : List Bool) : Option (SymbolicFunction Config K α) :=
  if mask.length = expr.value.length then some (new name robot expr mask) else none

/-- Factory `create (name, robot, expr)`: the mask is
`std::vector <bool> (expr->value ().size (), true)`. -/
def createFull (name : String) (robot : Device Config K) (expr : Expr K α) :
    Option (SymbolicFunction Config K α) :=
  create name robot expr (List.replicate expr.value.length true)

/-- Lines 77-80 of `impl_compute`: set the configuration, recompute the forward
kinematics, invalidate the expression and compute its value. -/
def refreshValue (F : SymbolicFunction Config K α) (argument : Config) :
    SymbolicFunction Config K α :=
  let robot := (F.robot_.currentConfiguration argument).computeForwardKinematics
  { F with robot_ := robot, expr_ := F.expr_.invalidate.computeValue robot.data }

/-- Lines 91-94 of `impl_jacobian`: set the configuration, recompute the forward
kinematics, invalidate the expression and compute its Jacobian. -/
def refreshJacobian (F : SymbolicFunction Config K α) (arg : Config) :
    SymbolicFunction Config K α :=
  let robot := (F.robot_.currentConfiguration arg).computeForwardKinematics
  { F with robot_ := robot, expr_ := F.expr_.invalidate.computeJacobian robot.data }

/-- Method `impl_compute (result, argument)`: the function after the call and the
buffer `result` after the call. -/
def impl_compute (F : SymbolicFunction Config K α) (result : List α) (argument : Config) :
    Option (SymbolicFunction Config K α × List α) :=
  let F1 := F.refreshValue argument
  (copyLoop fitsScalar F1.expr_.value F1.mask_ 0 0 result).map (fun r => (F1, r))

/-- Method `impl_jacobian (jacobian, arg)`: the function after the call and the
buffer `jacobian` after the call. -/
def impl_jacobian (F : SymbolicFunction Config K α) (jacobian : List (List α))
    (arg : Config) : Option (SymbolicFunction Config K α × List (List α)) :=
  let F1 := F.refreshJacobian arg
  (copyLoop fitsRow F1.expr_.jacobian F1.mask_ 0 0 jacobian).map (fun r => (F1, r))

end SymbolicFunction

/-- The indices of the true entries of a mask whose first entry has index `i`, in
increasing order. -/
def trueIndicesFrom : Nat → List Bool → List Nat
  | _, [] => []
  | i, true :: ms => i :: trueIndicesFrom (i + 1) ms
  | i, false :: ms => trueIndicesFrom (i + 1) ms

/-- The indices of the true entries of a mask, in increasing order. -/
def trueIndices (mask : List Bool) : List Nat := trueIndicesFrom 0 mask

/-- The unmasked value at configuration `q`: what the expression of `F` denotes
for the kinematic data of `q`. -/
def SymbolicFunction.unmaskedValue {Config K α : Type} (F : SymbolicFunction Config K α)
    (q : Config) : List α :=
  F.expr_.valueOf (F.robot_.forwardKinematics q)

/-- The unmasked Jacobian at configuration `q`: what the expression of `F` denotes
for the kinematic data of `q`. -/
def SymbolicFunction.unmaskedJacobian {Config K α : Type} (F : SymbolicFunction Config K α)
    (q : Config) : List (List α) :=
  F.expr_.jacobianOf (F.robot_.forwardKinematics q)

/-- A robot with one degree of freedom whose kinematic data is the configuration
itself. -/
def exampleDevice : Device Nat Nat :=
  { configSize := 1, numberDof := 1, forwardKinematics := fun q => q,
    currentConfiguration_ := 0, data := 0 }

/-- A leaf with three rows: value `(k, 2k, 3k)`, Jacobian `(1, 2, 3)`. -/
def exampleExpr : Expr Nat Int :=
  Expr.leaf false false [0, 0, 0] [[0], [0], [0]]
    (fun k => [(k : Int), 2 * k, 3 * k]) (fun _ => [[1], [2], [3]])

/-- The example expression behind the mask `(true, false, true)`. -/
def exampleFunction : SymbolicFunction Nat Nat Int :=
  SymbolicFunction.new "example" exampleDevice exampleExpr [true, false, true]

/-- A call of the public interface: `value (result, q)` or `jacobian (jacobian, q)`,
with the buffer the caller supplies. -/
inductive Call (Config α : Type) where
  | value (result : List α) (q : Config)
  | jacobian (jacobian : List (List α)) (q : Config)

/-- The function after one call. -/
def SymbolicFunction.call {Config K α : Type} (F : SymbolicFunction Config K α) :
    Call Config α → Option (SymbolicFunction Config K α)
  | Call.value result q => (F.impl_compute result q).map Prod.fst
  | Call.jacobian jacobian q => (F.impl_jacobian jacobian q).map Prod.fst

/-- The function after a sequence of calls, made one after the other. -/
def SymbolicFunction.after {Config K α : Type} (F : SymbolicFunction Config K α) :
    List (Call Config α) → Option (SymbolicFunction Config K α)
  | [] => some F
  | c :: cs =>
      match F.call c with
      | some F1 => F1.after cs
      | none => none

/-- Two states of one function: same mask, same kinematics engine and an
expression denoting the same value and Jacobian; the caches, the flags and the
stored configuration may differ. -/
def SymbolicFunction.Agrees {Config K α : Type} (F G : SymbolicFunction Config K α) : Prop :=
  G.mask_ = F.mask_ ∧ G.robot_.forwardKinematics = F.robot_.forwardKinematics ∧
  (∀ k, G.expr_.valueOf k = F.expr_.valueOf k) ∧
  (∀ k, G.expr_.jacobianOf k = F.expr_.jacobianOf k)

/-! ## HybridSolver -/

/-- A dense matrix: its numbers of rows and columns and its coefficients.  Only
the coefficients inside the bounds are meaningful. -/
structure Mat (α : Type) where
  rows : Nat
  cols : Nat
  coeff : Nat → Nat → α

namespace Mat

variable {α : Type}

/-- The Eigen product `A * B`, with the inner sum taken in index order; it needs
as many columns in `A` as rows in `B`. -/
def mul [Zero α] [Add α] [Mul α] (A B : Mat α) : Option (Mat α) :=
  if A.cols = B.rows then
    some
      { rows := A.rows
        cols := B.cols
        coeff := fun r c =>
          (List.range A.cols).foldl (fun acc k => acc + A.coeff r k * B.coeff k c) 0 }
  else none

/-- The Eigen compound assignment `R += P`, between matrices of the same size. -/
def addAssign [Add α] (R P : Mat α) : Option (Mat α) :=
  if R.rows = P.rows ∧ R.cols = P.cols then
    some { rows := R.rows, cols := R.cols, coeff := fun r c => R.coeff r c + P.coeff r c }
  else none

/-- The view of the rows `rowIdx` and the columns `colIdx` of `M`, evaluated; every
index has to lie inside `M`. -/
def view [Zero α] (rowIdx colIdx : List Nat) (M : Mat α) : Option (Mat α) :=
  if rowIdx.all (fun i => decide (i < M.rows)) && colIdx.all (fun j => decide (j < M.cols)) then
    some
      { rows := rowIdx.length
        cols := colIdx.length
        coeff := fun r c => M.coeff (rowIdx.getD r 0) (colIdx.getD c 0) }
  else none

/-- Call `idx.rviewTranspose (M).eval ()`: the columns `idx` of `M`, all rows
kept. -/
def rviewTranspose [Zero α] (idx : List Nat) (M : Mat α) : Option (Mat α) :=
  if idx.all (fun j => decide (j < M.cols)) then
    some
      { rows := M.rows
        cols := idx.length
        coeff := fun r c => M.coeff r (idx.getD c 0) }
  else none

/-- Call `view.writeTo (buffer)`: the buffer takes the coefficients of the view,
which has its size. -/
def writeTo (V buffer : Mat α) : Option (Mat α) :=
  if buffer.rows = V.rows ∧ buffer.cols = V.cols then some V else none

end Mat

/-- The velocity index sets of one explicit function `q_out = f (q_in)`
(`inputDerivIntervals_` and `outputDerivIntervals_` of `explicit_::Function`). -/
structure ExplicitPart where
  inDers : List Nat
  outDers : List Nat

/-- Modelled from the spec: the aggregate Explicit Function `explicit_` of the
hybrid solver (class `ExplicitSolver`, not part of the sources at hand).  It covers
the explicit functions `functions`, exposes the output-velocity index set
`outDers`, the eliminated columns among the `derSize` velocity columns, and
computes a full Jacobian of `derSize` rows and columns whose coefficients at
configuration `q` are `jacobianAt q`. -/
structure ExplicitSolver (Config α : Type) where
  derSize : Nat
  functions : List ExplicitPart
  outDers : List Nat
  jacobianAt : Config → Nat → Nat → α

namespace ExplicitSolver

variable {Config α : Type}

/-- Modelled from the spec: the input-velocity index set `inDers ()` of the
aggregate (not part of the sources at hand).  Every velocity column is either
reducible, covered by some explicit output, or free, and the reduced explicit
Jacobian has one column per free variable: `inDers` holds, in increasing order,
the columns that are not in `outDers`. -/
def inDers (e : ExplicitSolver Config α) : List Nat :=
  (List.range e.derSize).filter (fun c => !e.outDers.contains c)

/-- Call `explicit_.jacobian (buffer, arg)`: the full Jacobian at `arg`, written
into a buffer of `derSize` rows and columns. -/
def jacobian (e : ExplicitSolver Config α) (buffer : Mat α) (arg : Config) :
    Option (Mat α) :=
  if buffer.rows = e.derSize ∧ buffer.cols = e.derSize then
    some { rows := e.derSize, cols := e.derSize, coeff := e.jacobianAt arg }
  else none

/-- Call `explicit_.viewJacobian (J)`: one row per eliminated variable (`outDers`)
and one column per free variable (`inDers`). -/
def viewJacobian [Zero α] (e : ExplicitSolver Config α) (J : Mat α) : Option (Mat α) :=
  Mat.view e.outDers e.inDers J

/-- Variable `i` feeds variable `j`: some explicit function computes `j` from
inputs among which is `i`. -/
def Feeds (e : ExplicitSolver Config α) (i j : Nat) : Prop :=
  ∃ f ∈ e.functions, i ∈ f.inDers ∧ j ∈ f.outDers

/-- An elimination cycle: some output of an explicit function transitively feeds
an input of that same function. -/
def Cyclic (e : ExplicitSolver Config α) : Prop :=
  ∃ f ∈ e.functions, ∃ o ∈ f.outDers, ∃ i ∈ f.inDers, Relation.ReflTransGen e.Feeds o i

end ExplicitSolver

/-- The per-constraint buffers `Data` of the solver used by `updateJacobian`: the
full Jacobian of the constraint and its reduced Jacobian. -/
structure Data (α : Type) where
  jacobian : Mat α
  reducedJ : Mat α

/-- The state of a `HybridSolver` that the two methods read and write: the
explicit system, the stack, the per-constraint buffers, the two buffers of the
explicit Jacobian and the free columns recorded by `reduction`. -/
structure HybridSolver (Config Stack α : Type) where
  explicit_ : ExplicitSolver Config α
  stacks_ : List Stack
  datas_ : List (Data α)
  JeExpanded_ : Mat α
  Je_ : Mat α
  reduction_ : List Nat

namespace HybridSolver

variable {Config Stack α : Type}

/-- Modelled from the spec: `reduction (free)` of the base solver (not part of the
sources at hand) records the free velocity columns, every other column being
reducible; the numeric buffers are not rewritten. -/
def reduction (s : HybridSolver Config Stack α) (free : List Nat) :
    HybridSolver Config Stack α :=
  { s with reduction_ := free }

/-- Column `c` is free. -/
def isFree (s : HybridSolver Config Stack α) (c : Nat) : Bool := s.reduction_.contains c

/-- Column `c` is reducible: it is not free. -/
def isReducible (s : HybridSolver Config Stack α) (c : Nat) : Bool := !s.isFree c

/-- Method `explicitSolverHasChanged ()`. -/
def explicitSolverHasChanged (s : HybridSolver Config Stack α) :
    HybridSolver Config Stack α :=
  s.reduction s.explicit_.inDers

/-- The body of the loop of `updateJacobian` for one stack entry:
`d.reducedJ.noalias () += explicit_.outDers ().rviewTranspose (d.jacobian).eval () * Je_`. -/
def updateEntry [Zero α] [Add α] [Mul α] (outDers : List Nat) (Je : Mat α) (d : Data α) :
    Option (Data α) :=
  match Mat.rviewTranspose outDers d.jacobian with
  | none => none
  | some S =>
      match Mat.mul S Je with
      | none => none
      | some P =>
          match Mat.addAssign d.reducedJ P with
          | none => none
          | some R => some { d with reducedJ := R }

/-- The loop of `updateJacobian` over the stack indices `order`, each step taking
`datas_[i]` and updating it in place. -/
def updateEntries [Zero α] [Add α] [Mul α] (outDers : List Nat) (Je : Mat α) :
    List Nat → List (Data α) → Option (List (Data α))
  | [], datas => some datas
  | i :: order, datas =>
      match datas[i]? with
      | none => none
      | some d =>
          match updateEntry outDers Je d with
          | none => none
          | some d1 => updateEntries outDers Je order (datas.set i d1)

/-- The two statements computing `Je_`: `explicit_.jacobian (JeExpanded_, arg)`
and `explicit_.viewJacobian (JeExpanded_).writeTo (Je_)`; the result is the pair of
buffers. -/
def computeJe [Zero α] (s : HybridSolver Config Stack α) (arg : Config) :
    Option (Mat α × Mat α) :=
  match s.explicit_.jacobian s.JeExpanded_ arg with
  | none => none
  | some JeExpanded =>
      match s.explicit_.viewJacobian JeExpanded with
      | none => none
      | some V =>
          match Mat.writeTo V s.Je_ with
          | none => none
          | some Je => some (JeExpanded, Je)

/-- Method `updateJacobian (arg)`: compute `Je_`, then run the loop for
`i = 0, ..., stacks_.size () - 1`. -/
def updateJacobian [Zero α] [Add α] [Mul α] (s : HybridSolver Config Stack α)
    (arg : Config) : Option (HybridSolver Config Stack α) :=
  match s.computeJe arg with
  | none => none
  | some (JeExpanded, Je) =>
      match updateEntries s.explicit_.outDers Je (List.range s.stacks_.length) s.datas_ with
      | none => none
      | some datas => some { s with JeExpanded_ := JeExpanded, Je_ := Je, datas_ := datas }

/-- The sizes `updateJacobian` relies on: a buffer set per stack entry; index sets
inside the `derSize` velocity columns; `JeExpanded_` of `derSize` rows and columns;
`Je_` with a row per output index and a column per input index; every constraint
Jacobian of `derSize` columns and every reduced Jacobian with the rows of its
constraint and a column per input index. -/
def wellFormed (s : HybridSolver Config Stack α) : Bool :=
  decide (s.stacks_.length ≤ s.datas_.length) &&
  s.explicit_.outDers.all (fun i => decide (i < s.explicit_.derSize)) &&
  s.explicit_.inDers.all (fun j => decide (j < s.explicit_.derSize)) &&
  decide (s.JeExpanded_.rows = s.explicit_.derSize) &&
  decide (s.JeExpanded_.cols = s.explicit_.derSize) &&
  decide (s.Je_.rows = s.explicit_.outDers.length) &&
  decide (s.Je_.cols = s.explicit_.inDers.length) &&
  s.datas_.all (fun d =>
    decide (d.jacobian.cols = s.explicit_.derSize) &&
    decide (d.reducedJ.rows = d.jacobian.rows) &&
    decide (d.reducedJ.cols = s.explicit_.inDers.length))

end HybridSolver

/-- The coefficient `(r, c)` of `S_i · Je` at configuration `q`: `S_i` holds the
columns `outDers` of the constraint Jacobian `J`, and `Je` the rows `outDers` and
the columns `inDers` of the explicit Jacobian at `q`. -/
def projected {Config α : Type} [Semiring α] (e : ExplicitSolver Config α) (q : Config)
    (J : Mat α) (r c : Nat) : α :=
  ∑ k in Finset.range e.outDers.length,
    J.coeff r (e.outDers.getD k 0) * e.jacobianAt q (e.outDers.getD k 0) (e.inDers.getD c 0)

/-- The system of two variables in which `q2 = c * q1` is explicit and one
constraint has the Jacobian `(a, b)`; its reduced Jacobian buffer holds `r0`. -/
def twoVariableSolver {α : Type} [Semiring α] (a b c r0 : α) : HybridSolver Unit Unit α :=
  { explicit_ :=
      { derSize := 2
        functions := [{ inDers := [0], outDers := [1] }]
        outDers := [1]
        jacobianAt := fun _ i j => if i = 1 ∧ j = 0 then c else 0 }
    stacks_ := [()]
    datas_ :=
      [{ jacobian := { rows := 1, cols := 2, coeff := fun _ j => if j = 0 then a else b }
         reducedJ := { rows := 1, cols := 1, coeff := fun _ _ => r0 } }]
    JeExpanded_ := { rows := 2, cols := 2, coeff := fun _ _ => 0 }
    Je_ := { rows := 1, cols := 1, coeff := fun _ _ => 0 }
    reduction_ := [] }

/-- Three velocity columns with an elimination cycle: column 0 is computed from
column 1 and column 1 from column 0; column 2 is the free column of the
aggregate. -/
def cyclicSolver : HybridSolver Unit Unit Int :=
  { explicit_ :=
      { derSize := 3
        functions := [{ inDers := [1], outDers := [0] }, { inDers := [0], outDers := [1] }]
        outDers := [0, 1]
        jacobianAt := fun _ _ _ => 0 }
    stacks_ := []
    datas_ := []
    JeExpanded_ := { rows := 3, cols := 3, coeff := fun _ _ => 0 }
    Je_ := { rows := 2, cols := 1, coeff := fun _ _ => 0 }
    reduction_ := [] }

/-- The buffers of one stack entry after the loop body of `updateJacobian`, in
closed form: the product of the columns `outDers` of the Jacobian with `Je` is
added to the reduced Jacobian. -/
def Data.accumulate {α : Type} [Zero α] [Add α] [Mul α] (outDers : List Nat) (Je : Mat α)
    (d : Data α) : Data α :=
  { d with
    reducedJ :=
      { rows := d.reducedJ.rows
        cols := d.reducedJ.cols
        coeff := fun r c =>
          d.reducedJ.coeff r c +
            (List.range outDers.length).foldl
              (fun acc k => acc + d.jacobian.coeff r (outDers.getD k 0) * Je.coeff k c) 0 } }

/-- The reduced explicit Jacobian `Je` at `q`, in closed form. -/
def ExplicitSolver.reducedJacobian {Config α : Type} (e : ExplicitSolver Config α)
    (q : Config) : Mat α :=
  { rows := e.outDers.length
    cols := e.inDers.length
    coeff := fun r c => e.jacobianAt q (e.outDers.getD r 0) (e.inDers.getD c 0) }

/-- The sizes of the buffers of one stack entry agree with the explicit system. -/
def Data.Fits {Config α : Type} (e : ExplicitSolver Config α) (d : Data α) : Prop :=
  d.jacobian.cols = e.derSize ∧ d.reducedJ.rows = d.jacobian.rows ∧
    d.reducedJ.cols = e.inDers.length

/-- The entries of `src` at the indices `ts`, in the order of `ts`. -/
def pick {β : Type} (src : List β) (ts : List Nat) : List β :=
  ts.filterMap (fun t => src[t]?)

/-! ## Lie groups, explicit functions -/

/-- Modelled from the spec: a Manifold / Lie-group space (`LiegroupSpace`, declared
outside the sources at hand) with the two primitives the spec lists as external:
`difference q0 q1`, the tangent vector `q1 ⊖ q0`, and `dDifference_dq0 q0 q1`, the
derivative of `q1 ⊖ q0` with respect to `q0`. -/
structure LiegroupSpace (α : Type) where
  nq : Nat
  nv : Nat
  difference : List α → List α → List α
  dDifference_dq0 : List α → List α → Mat α

/-- An element of a Lie group: its coordinates and its space. -/
structure LiegroupElement (α : Type) where
  vector : List α
  space : LiegroupSpace α

namespace LiegroupElement

variable {α : Type}

/-- The constructor `LiegroupElement (space)`: `nq` coordinates, taken as zero. -/
def ofSpace [Zero α] (space : LiegroupSpace α) : LiegroupElement α :=
  { vector := List.replicate space.nq 0, space := space }

/-- The operator `e1 - e2` of two elements: the tangent vector `e1 ⊖ e2`. -/
def sub (e1 e2 : LiegroupElement α) : List α := e1.space.difference e2.vector e1.vector

end LiegroupElement

/-- Modelled from the spec: the public contract `DifferentiableFunction` (base
class declared outside the sources at hand) as seen by its callers: sizes, an
output space, and the value and the Jacobian coefficients at an argument. -/
structure DifferentiableFunction (α : Type) where
  inputSize : Nat
  inputDerivativeSize : Nat
  outputSpace : LiegroupSpace α
  valueAt : List α → List α
  jacobianAt : List α → Nat → Nat → α

namespace DifferentiableFunction

variable {α : Type}

/-- Call `f->value (result, arg)`: the coordinates of `result` become `f (arg)`. -/
def value (f : DifferentiableFunction α) (result : LiegroupElement α) (arg : List α) :
    LiegroupElement α :=
  { result with vector := f.valueAt arg }

/-- Call `f->jacobian (buffer, arg)`: the buffer takes the Jacobian at `arg`. -/
def jacobian (f : DifferentiableFunction α) (buffer : Mat α) (arg : List α) : Mat α :=
  { rows := buffer.rows, cols := buffer.cols, coeff := f.jacobianAt arg }

/-- The identity map of a space, as a differentiable function. -/
def identity [Zero α] [One α] (space : LiegroupSpace α) : DifferentiableFunction α :=
  { inputSize := space.nq
    inputDerivativeSize := space.nv
    outputSpace := space
    valueAt := fun v => v
    jacobianAt := fun _ r c => if r = c then 1 else 0 }

end DifferentiableFunction

namespace explicit_

/-- The struct `GenericGData` of `explicit_::Function`: the outer map `g`, the
cached element `g_qOut_` and the Jacobian buffer `Jg_`. -/
structure GenericGData (α : Type) where
  g_ : DifferentiableFunction α
  g_qOut_ : LiegroupElement α
  Jg_ : Mat α

namespace GenericGData

variable {α : Type}

/-- The constructor: `g_qOut_ (g->outputSpace ())` and `Jg_` of
`g->outputSpace ()->nv ()` rows and `g->inputDerivativeSize ()` columns. -/
def new [Zero α] (g : DifferentiableFunction α) : GenericGData α :=
  { g_ := g
    g_qOut_ := LiegroupElement.ofSpace g.outputSpace
    Jg_ := { rows := g.outputSpace.nv, cols := g.inputDerivativeSize, coeff := fun _ _ => 0 } }

/-- Method `computeValue (qOut)`: `g_->value (g_qOut_, qOut.vector ())`. -/
def computeValue (d : GenericGData α) (qOut : LiegroupElement α) : GenericGData α :=
  { d with g_qOut_ := d.g_.value d.g_qOut_ qOut.vector }

/-- Method `value (const LiegroupElement&)`: returns `g_qOut_`; the argument has
no name and is not read. -/
def value (d : GenericGData α) (_ : LiegroupElement α) : LiegroupElement α := d.g_qOut_

/-- Method `jacobian (qOut)`: `g_->jacobian (Jg_, qOut.vector ())`, then returns
`Jg_`. -/
def jacobian (d : GenericGData α) (qOut : LiegroupElement α) : GenericGData α × Mat α :=
  let J := d.g_.jacobian d.Jg_ qOut.vector
  ({ d with Jg_ := J }, J)

end GenericGData

/-- The struct `IdentityData` of `explicit_::Function`: only the buffer `Jg_`. -/
structure IdentityData (α : Type) where
  Jg_ : Mat α

namespace IdentityData

variable {α : Type}

/-- The constructor: the argument is not used and `Jg_` is default-constructed,
an empty matrix. -/
def new [Zero α] (_ : DifferentiableFunction α) : IdentityData α :=
  { Jg_ := { rows := 0, cols := 0, coeff := fun _ _ => 0 } }

/-- Method `computeValue (const LiegroupElement&)`: empty body. -/
def computeValue (d : IdentityData α) (_ : LiegroupElement α) : IdentityData α := d

/-- Method `value (qOut)`: returns `qOut`. -/
def value (_ : IdentityData α) (qOut : LiegroupElement α) : LiegroupElement α := qOut

/-- Method `jacobian (const LiegroupElement&)`: returns `Jg_`. -/
def jacobian (d : IdentityData α) (_ : LiegroupElement α) : Mat α := d.Jg_

end IdentityData

/-- The type `GData`: `IdentityData` when `GisIdentity`, `GenericGData` otherwise. -/
inductive GData (α : Type) where
  | identity (d : IdentityData α)
  | generic (d : GenericGData α)

namespace GData

variable {α : Type}

/-- Call `gData_.computeValue (qOut)` on either struct. -/
def computeValue : GData α → LiegroupElement α → GData α
  | identity d, qOut => identity (d.computeValue qOut)
  | generic d, qOut => generic (d.computeValue qOut)

/-- Call `gData_.value (qOut)` on either struct. -/
def value : GData α → LiegroupElement α → LiegroupElement α
  | identity d, qOut => d.value qOut
  | generic d, qOut => d.value qOut

end GData

/-- The indices covered by a list of segments `(first, length)`, in order. -/
def segmentIndices : List (Nat × Nat) → List Nat
  | [] => []
  | (first, len) :: rest => List.range' first len ++ segmentIndices rest

/-- Call `intervals.rview (v)`: the entries of `v` at the indices of the segments;
every index has to lie inside `v`. -/
def rview {α : Type} (segments : List (Nat × Nat)) (v : List α) : Option (List α) :=
  if (segmentIndices segments).all (fun i => decide (i < v.length)) then
    some (pick v (segmentIndices segments))
  else none

/-- The assignment of `src` to the view of the columns `idx` of `dst`: column
`idx[k]` of `dst` takes column `k` of `src`, the other columns are not written.
The sizes have to agree and every index has to lie inside `dst`. -/
def scatterCols {α : Type} (idx : List Nat) (src dst : Mat α) : Option (Mat α) :=
  if src.rows = dst.rows ∧ src.cols = idx.length ∧
      idx.all (fun j => decide (j < dst.cols)) = true then
    some
      { rows := dst.rows
        cols := dst.cols
        coeff := fun r c => if c ∈ idx then src.coeff r (idx.indexOf c) else dst.coeff r c }
  else none

/-- The class `explicit_::Function <GisIdentity>`: the inner map `f`
(`inputToOutput_`), the four index sets, the data of the outer map and the
scratch members. -/
structure Function (α : Type) where
  inputToOutput_ : DifferentiableFunction α
  inputConfIntervals_ : List (Nat × Nat)
  inputDerivIntervals_ : List (Nat × Nat)
  outputConfIntervals_ : List (Nat × Nat)
  outputDerivIntervals_ : List (Nat × Nat)
  gData_ : GData α
  qIn_ : List α
  f_qIn_ : LiegroupElement α
  qOut_ : LiegroupElement α
  Jf_ : Mat α

namespace Function

variable {α : Type}

/-- Modelled from the spec: `impl_compute` of `explicit_::Function` (its body, in
`function.cc`, is not part of the sources at hand; the header documents it as
"Compute g (q_out) - f (q_in)").  `q_in` and `q_out` are the sub-vectors of the
argument selected by the input and output configuration index sets; `f` is
evaluated on `q_in`, the data of `g` on `q_out`, and the result takes the
difference. -/
def impl_compute (F : Function α) (result : LiegroupElement α) (argument : List α) :
    Option (Function α × LiegroupElement α) :=
  match rview F.inputConfIntervals_ argument, rview F.outputConfIntervals_ argument with
  | some qIn, some qOutV =>
      let qOut : LiegroupElement α := { F.qOut_ with vector := qOutV }
      let f_qIn := F.inputToOutput_.value F.f_qIn_ qIn
      let gData := F.gData_.computeValue qOut
      some ({ F with qIn_ := qIn, qOut_ := qOut, f_qIn_ := f_qIn, gData_ := gData },
        { result with vector := (gData.value qOut).sub f_qIn })
  | _, _ => none

/-- The Jacobian of the outer map at `qOut` and the data after computing it: the
identity of `n` rows when `g` is the identity, `g`'s Jacobian otherwise. -/
def outerJacobian [Zero α] [One α] (n : Nat) : GData α → LiegroupElement α → GData α × Mat α
  | GData.identity d, _ =>
      (GData.identity d, { rows := n, cols := n, coeff := fun r c => if r = c then 1 else 0 })
  | GData.generic d, qOut => (GData.generic (d.jacobian qOut).1, (d.jacobian qOut).2)

/-- Modelled from the spec: `impl_jacobian` of `explicit_::Function` (its body, in
`function.cc`, is not part of the sources at hand; the header documents it as
"Compute Jacobian of g (q_out) - f (q_in) with respect to q").  The Jacobian of `f`
is evaluated on `q_in`, that of `g` on `q_out` (the identity when `g` is the
identity), and both are scattered into the full-width Jacobian through the views of
the output-velocity and input-velocity columns; the result is the Jacobian with
respect to the whole of `q`, so the columns outside the two index sets are exactly
zero, whatever the buffer held. -/
def impl_jacobian [Zero α] [One α] [Neg α] (F : Function α) (jacobian : Mat α)
    (arg : List α) : Option (Function α × Mat α) :=
  match rview F.inputConfIntervals_ arg, rview F.outputConfIntervals_ arg with
  | some qIn, some qOutV =>
      let qOut : LiegroupElement α := { F.qOut_ with vector := qOutV }
      let Jf := F.inputToOutput_.jacobian F.Jf_ qIn
      let gJ := outerJacobian (segmentIndices F.outputDerivIntervals_).length F.gData_ qOut
      match scatterCols (segmentIndices F.outputDerivIntervals_) gJ.2
          { jacobian with coeff := fun _ _ => 0 } with
      | none => none
      | some J1 =>
          match scatterCols (segmentIndices F.inputDerivIntervals_)
              { Jf with coeff := fun r c => - Jf.coeff r c } J1 with
          | none => none
          | some J2 =>
              some ({ F with qIn_ := qIn, qOut_ := qOut, Jf_ := Jf, gData_ := gJ.1 }, J2)
  | _, _ => none

end Function

end explicit_

/-- The flat space of dimension `n`: the difference is the subtraction and its
derivative with respect to the first argument is minus the identity. -/
def flatSpace {α : Type} [Ring α] (n : Nat) : LiegroupSpace α :=
  { nq := n
    nv := n
    difference := fun q0 q1 => List.zipWith (fun a b => b - a) q0 q1
    dDifference_dq0 := fun _ _ =>
      { rows := n, cols := n, coeff := fun r c => if r = c then -1 else 0 } }

/-- The explicit function `q1 = 2 * q0` over three variables, with the identity as
outer map; variable 2 is neither input nor output. -/
def exampleExplicit : explicit_.Function Int :=
  { inputToOutput_ :=
      { inputSize := 1
        inputDerivativeSize := 1
        outputSpace := flatSpace 1
        valueAt := fun v => v.map (fun x => 2 * x)
        jacobianAt := fun _ r c => if r = 0 ∧ c = 0 then 2 else 0 }
    inputConfIntervals_ := [(0, 1)]
    inputDerivIntervals_ := [(0, 1)]
    outputConfIntervals_ := [(1, 1)]
    outputDerivIntervals_ := [(1, 1)]
    gData_ := explicit_.GData.identity (explicit_.IdentityData.new (DifferentiableFunction.identity (flatSpace 1)))
    qIn_ := [0]
    f_qIn_ := LiegroupElement.ofSpace (flatSpace 1)
    qOut_ := LiegroupElement.ofSpace (flatSpace 1)
    Jf_ := { rows := 1, cols := 1, coeff := fun _ _ => 0 } }

/-- A constant outer map on the flat line: `g (x) = 0`. -/
def constantG : DifferentiableFunction Int :=
  { inputSize := 1
    inputDerivativeSize := 1
    outputSpace := flatSpace 1
    valueAt := fun _ => [0]
    jacobianAt := fun _ _ _ => 0 }

/-! ## ConfigurationConstraint -/

namespace pinocchio

/-- Modelled from the spec: the robot as `ConfigurationConstraint` uses it
(`hpp::pinocchio::Device`, declared outside the sources at hand): the sizes of a
configuration and of a velocity, and the configuration space. -/
structure Device (α : Type) where
  configSize : Nat
  numberDof : Nat
  configSpace : LiegroupSpace α

end pinocchio

/-- The Eigen product `a.dot (b)` of two vectors of the same size. -/
def dot {α : Type} [Zero α] [Add α] [Mul α] (a b : List α) : Option α :=
  if a.length = b.length then some (List.zipWith (fun x y => x * y) a b).sum else none

/-- The in-place product `v^T := v^T * J` of a row vector by a square matrix. -/
def rowTimes {α : Type} [Zero α] [Add α] [Mul α] (v : List α) (J : Mat α) :
    Option (List α) :=
  if v.length = J.rows ∧ J.cols = J.rows then
    some ((List.range J.cols).map fun j =>
      ((List.range J.rows).map fun i => v.getD i 0 * J.coeff i j).sum)
  else none

/-- The class `ConfigurationConstraint`, with the sizes and the name kept by its
base `DifferentiableFunction`; `diff_` is a scratch member. -/
structure ConfigurationConstraint (α : Type) where
  inputSize : Nat
  inputDerivativeSize : Nat
  outputSize : Nat
  name : String
  robot_ : pinocchio.Device α
  weights_ : List α
  diff_ : List α
  goal_ : LiegroupElement α

namespace ConfigurationConstraint

variable {α : Type}

/-- The constructor: the output space is `R1`, `diff_` has `numberDof` entries, the
size of `weights` is asserted to be `numberDof`, and the goal becomes an element
of a copy of the configuration space of the robot (`mergeVectorSpaces` regroups
the vector-space factors of that copy and leaves the space the same). -/
def new [Zero α] (name : String) (robot : pinocchio.Device α) (goal : List α)
    (weights : List α) : Option (ConfigurationConstraint α) :=
  if weights.length = robot.numberDof then
    some
      { inputSize := robot.configSize
        inputDerivativeSize := robot.numberDof
        outputSize := 1
        name := name
        robot_ := robot
        weights_ := weights
        diff_ := List.replicate robot.numberDof 0
        goal_ := { vector := goal, space := robot.configSpace } }
  else none

/-- Factory `create (name, robot, goal, weights)`. -/
def createFromWeights [Zero α] (name : String) (robot : pinocchio.Device α)
    (goal : List α) (weights : List α) : Option (ConfigurationConstraint α) :=
  new name robot goal weights

/-- The loop of the mask factory,
`for (i = 0; i < mask.size (); ++i) if (!mask[i]) ws[i] = 0;`
entered at position `i` with the rest of the mask still to visit. -/
def maskLoop [Zero α] : List Bool → Nat → List α → Option (List α)
  | [], _, ws => some ws
  | true :: ms, i, ws => maskLoop ms (i + 1) ws
  | false :: ms, i, ws =>
      if i < ws.length then maskLoop ms (i + 1) (ws.set i 0) else none

/-- Factory `create (name, robot, goal, mask)`: the weights start as
`vector_t::Ones (robot->numberDof ())`, the loop clears those the mask switches
off, and the constraint is constructed from them. -/
def create [Zero α] [One α] (name : String) (robot : pinocchio.Device α)
    (goal : List α) (mask : List Bool) : Option (ConfigurationConstraint α) :=
  match maskLoop mask 0 (List.replicate robot.numberDof (1 : α)) with
  | some ws => new name robot goal ws
  | none => none

/-- Method `impl_compute (result, argument)`:
`diff_ = (goal_ - a).cwiseAbs2 (); result.vector () [0] = 0.5 * weights_.dot (diff_)`. -/
def impl_compute [Field α] (C : ConfigurationConstraint α) (result : LiegroupElement α)
    (argument : List α) : Option (ConfigurationConstraint α × LiegroupElement α) :=
  let a : LiegroupElement α := { vector := argument, space := C.goal_.space }
  let diff := (C.goal_.sub a).map (fun x => x * x)
  match dot C.weights_ diff with
  | some s =>
      if 0 < result.vector.length then
        some ({ C with diff_ := diff },
          { result with vector := result.vector.set 0 (1 / 2 * s) })
      else none
  | none => none

/-- Method `impl_jacobian (jacobian, argument)`: `diff_ = goal_ - a`; the Jacobian
of the difference is applied on the right of `diff_.transpose ()`, in place; the
left `numberDof` columns of the row `jacobian` take
`weights_.cwiseProduct (diff_).transpose ()`. -/
def impl_jacobian [Zero α] [Add α] [Mul α] (C : ConfigurationConstraint α)
    (jacobian : Mat α) (argument : List α) : Option (ConfigurationConstraint α × Mat α) :=
  let a : LiegroupElement α := { vector := argument, space := C.goal_.space }
  let diff := C.goal_.sub a
  match rowTimes diff (C.goal_.space.dDifference_dq0 argument C.goal_.vector) with
  | some diff1 =>
      if C.weights_.length = diff1.length ∧ diff1.length = C.robot_.numberDof ∧
          jacobian.rows = 1 ∧ C.robot_.numberDof ≤ jacobian.cols then
        some ({ C with diff_ := diff1 },
          { jacobian with
            coeff := fun r c =>
              if c < C.robot_.numberDof then
                (List.zipWith (fun w x => w * x) C.weights_ diff1).getD c 0
              else jacobian.coeff r c })
      else none
  | none => none

end ConfigurationConstraint

/-- The row `(w ⊙ d)^T * J0`: the gradient of `1/2 * Σ w_i * d_i^2` when `J0` is
the derivative of `d`. -/
def weightedGradientRow {α : Type} [Zero α] [Add α] [Mul α] (w d : List α) (J0 : Mat α) :
    Option (List α) :=
  rowTimes (List.zipWith (fun x y => x * y) w d) J0

/-- The weights the mask factory is to build: 0 where the mask has a false entry,
1 elsewhere, for `numberDof` coordinates. -/
def maskWeights {α : Type} [Zero α] [One α] (numberDof : Nat) (mask : List Bool) : List α :=
  (List.range numberDof).map fun i => if mask.getD i true then 1 else 0

/-- The Heisenberg group in the coordinates `(a, b, c)` with the product
`(a, b, c) (a', b', c') = (a + a', b + b', c + c' + 2 a b')`, a Lie group that is
not commutative and whose exponential `exp (x, y, z) = (x, y, z + x y)` and
logarithm are polynomial.  The difference is `log (q0⁻¹ q1)` and
`dDifference_dq0 q0 q1` is its derivative along `q0 exp (v)`. -/
def heisenbergSpace {α : Type} [CommRing α] : LiegroupSpace α :=
  { nq := 3
    nv := 3
    difference := fun q0 q1 =>
      [q1.getD 0 0 - q0.getD 0 0, q1.getD 1 0 - q0.getD 1 0,
        q1.getD 2 0 - q0.getD 2 0 - 2 * q0.getD 0 0 * (q1.getD 1 0 - q0.getD 1 0) -
          (q1.getD 0 0 - q0.getD 0 0) * (q1.getD 1 0 - q0.getD 1 0)]
    dDifference_dq0 := fun q0 q1 =>
      { rows := 3
        cols := 3
        coeff := fun r c =>
          (([[-1, 0, 0], [0, -1, 0],
              [-(q1.getD 1 0 - q0.getD 1 0), q1.getD 0 0 - q0.getD 0 0, -1]] :
            List (List α)).getD r []).getD c 0 } }

/-- The element `q exp (v)` of the Heisenberg group: `q` moved along the tangent
vector `v`. -/
def heisenbergIntegrate {α : Type} [CommRing α] (q v : List α) : List α :=
  [q.getD 0 0 + v.getD 0 0, q.getD 1 0 + v.getD 1 0,
    q.getD 2 0 + (v.getD 2 0 + v.getD 0 0 * v.getD 1 0) + 2 * q.getD 0 0 * v.getD 1 0]

/-- A robot of three degrees of freedom over a space. -/
def exampleRobot {α : Type} (space : LiegroupSpace α) : pinocchio.Device α :=
  { configSize := 3, numberDof := 3, configSpace := space }

/-- The sizes `impl_jacobian` of an explicit function relies on: the Jacobian of
the outer map and that of `f` have the rows of the buffer, a column per output
velocity index and per input velocity index, and the indices lie inside the
buffer. -/
def explicit_.Function.SizesAgree {α : Type} (F : explicit_.Function α) (jacobian : Mat α) :
    Prop :=
  (match F.gData_ with
    | explicit_.GData.identity _ =>
        jacobian.rows = (explicit_.segmentIndices F.outputDerivIntervals_).length
    | explicit_.GData.generic d =>
        d.Jg_.rows = jacobian.rows ∧
          d.Jg_.cols = (explicit_.segmentIndices F.outputDerivIntervals_).length) ∧
  F.Jf_.rows = jacobian.rows ∧
  F.Jf_.cols = (explicit_.segmentIndices F.inputDerivIntervals_).length ∧
  (∀ j ∈ explicit_.segmentIndices F.outputDerivIntervals_, j < jacobian.cols) ∧
  (∀ j ∈ explicit_.segmentIndices F.inputDerivIntervals_, j < jacobian.cols)

/-- The value `1/2 * Σ_i w_i * d_i^2` over the coordinates of `w`. -/
def halfWeightedSquares {α : Type} [Field α] (w d : List α) : α :=
  1 / 2 * ∑ i in Finset.range w.length, w.getD i 0 * (d.getD i 0) ^ 2

/-- A constraint over the flat space of dimension 3 with the goal `(1, 2, 3)` and
the weights `(1, 0, 1)`. -/
def exampleConstraint : ConfigurationConstraint Rat :=
  { inputSize := 3, inputDerivativeSize := 3, outputSize := 1, name := "example",
    robot_ := exampleRobot (flatSpace 3), weights_ := [1, 0, 1], diff_ := [0, 0, 0],
    goal_ := { vector := [1, 2, 3], space := flatSpace 3 } }

/-- The system of two variables with `q2 = 2 * q1` explicit and a stack of two
constraints, of Jacobians `(1, 1)` and `(4, 10)`, whose reduced Jacobian buffers
hold 1 and 4. -/
def twoEntrySolver : HybridSolver Unit Unit Int :=
  { twoVariableSolver (1 : Int) 1 2 1 with
    stacks_ := [(), ()]
    datas_ :=
      [{ jacobian := { rows := 1, cols := 2, coeff := fun _ j => if j = 0 then 1 else 1 }
         reducedJ := { rows := 1, cols := 1, coeff := fun _ _ => 1 } },
       { jacobian := { rows := 1, cols := 2, coeff := fun _ j => if j = 0 then 4 else 10 }
         reducedJ := { rows := 1, cols := 1, coeff := fun _ _ => 4 } }] }

/-! ## The copy loop -/

theorem trueIndicesFrom_length (ms : List Bool) (i : Nat) :
    (trueIndicesFrom i ms).length = ms.count true := by
  induction ms generalizing i with
  | nil => rfl
  | cons m ms ih => cases m <;> simp [trueIndicesFrom, ih]

theorem mem_trueIndicesFrom (ms : List Bool) (i t : Nat) :
    t ∈ trueIndicesFrom i ms ↔ i ≤ t ∧ ms[t - i]? = some true := by
  induction ms generalizing i with
  | nil => simp [trueIndicesFrom]
  | cons m ms ih =>
    have hstep : ∀ b : Bool, i + 1 ≤ t → ((m :: ms)[t - i]? = some b ↔ ms[t - (i + 1)]? = some b) := by
      intro b h
      have : t - i = (t - (i + 1)) + 1 := by omega
      rw [this, List.getElem?_cons_succ]
    cases m
    · simp only [trueIndicesFrom, ih]
      constructor
      · rintro ⟨h1, h2⟩
        exact ⟨by omega, (hstep true h1).2 h2⟩
      · rintro ⟨h1, h2⟩
        rcases Nat.eq_or_lt_of_le h1 with h | h
        · subst h; simp at h2
        · exact ⟨h, (hstep true h).1 h2⟩
    · simp only [trueIndicesFrom, List.mem_cons, ih]
      constructor
      · rintro (h | ⟨h1, h2⟩)
        · subst h; simp
        · exact ⟨by omega, (hstep true h1).2 h2⟩
      · rintro ⟨h1, h2⟩
        rcases Nat.eq_or_lt_of_le h1 with h | h
        · exact Or.inl h.symm
        · exact Or.inr ⟨h, (hstep true h).1 h2⟩

theorem trueIndicesFrom_pairwise (ms : List Bool) (i : Nat) :
    (trueIndicesFrom i ms).Pairwise (fun a b => a < b) := by
  induction ms generalizing i with
  | nil => simp [trueIndicesFrom]
  | cons m ms ih =>
    cases m
    · simpa [trueIndicesFrom] using ih (i + 1)
    · simp only [trueIndicesFrom, List.pairwise_cons]
      refine ⟨?_, ih (i + 1)⟩
      intro t ht
      have := (mem_trueIndicesFrom ms (i + 1) t).1 ht
      omega

theorem trueIndicesFrom_lt (ms : List Bool) (i t : Nat) (h : t ∈ trueIndicesFrom i ms) :
    t < i + ms.length := by
  obtain ⟨h1, h2⟩ := (mem_trueIndicesFrom ms i t).1 h
  have := (List.getElem?_eq_some_iff.1 h2).1
  omega

theorem mem_trueIndices (mask : List Bool) (t : Nat) :
    t ∈ trueIndices mask ↔ mask[t]? = some true := by
  simp [trueIndices, mem_trueIndicesFrom]

theorem pick_length {β : Type} (src : List β) (ts : List Nat)
    (h : ∀ t ∈ ts, t < src.length) : (pick src ts).length = ts.length := by
  induction ts with
  | nil => rfl
  | cons t ts ih =>
    have ht : t < src.length := h t (List.mem_cons_self _ _)
    have := ih (fun u hu => h u (List.mem_cons_of_mem _ hu))
    simp [pick, List.filterMap_cons, List.getElem?_eq_getElem ht] at this ⊢
    exact this

theorem pick_getElem? {β : Type} (src : List β) (ts : List Nat)
    (h : ∀ t ∈ ts, t < src.length) (j t : Nat) (hj : ts[j]? = some t) :
    (pick src ts)[j]? = src[t]? := by
  induction ts generalizing j with
  | nil => simp at hj
  | cons u ts ih =>
    have hu : u < src.length := h u (List.mem_cons_self _ _)
    have hrest : ∀ t ∈ ts, t < src.length := fun w hw => h w (List.mem_cons_of_mem _ hw)
    have hcons : pick src (u :: ts) = src[u] :: pick src ts := by
      simp [pick, List.filterMap_cons, List.getElem?_eq_getElem hu]
    rw [hcons]
    cases j with
    | zero =>
      simp at hj
      subst hj
      simp [List.getElem?_eq_getElem hu]
    | succ j =>
      simp at hj
      simpa using ih hrest j hj

/-- What the copy loop computes: entered at mask position `i` and output position
`index`, it overwrites the next `count true` entries of `dst` with the entries of
`src` at the true positions and leaves every other entry alone. -/
theorem copyLoop_eq {β : Type} (fits : β → β → Bool) (src : List β) (ms : List Bool) :
    ∀ (i index : Nat) (dst : List β),
      i + ms.length ≤ src.length →
      index + ms.count true ≤ dst.length →
      (∀ old ∈ dst.drop index, ∀ v ∈ src, fits old v = true) →
      copyLoop fits src ms i index dst =
        some (dst.take index ++ pick src (trueIndicesFrom i ms) ++
          dst.drop (index + ms.count true)) := by
  induction ms with
  | nil =>
    intro i index dst _ _ _
    simp [copyLoop, trueIndicesFrom, pick]
  | cons m ms ih =>
    intro i index dst hsrc hdst hfit
    cases m
    · have h := ih (i + 1) index dst (by simp at hsrc; omega) (by simpa using hdst) hfit
      simpa [copyLoop, trueIndicesFrom] using h
    · have hi : i < src.length := by simp at hsrc; omega
      have hidx : index < dst.length := by simp at hdst; omega
      have hold : dst[index] ∈ dst.drop index := by
        rw [List.mem_iff_getElem?]
        exact ⟨0, by simp [List.getElem?_drop, List.getElem?_eq_getElem hidx]⟩
      have hf : fits dst[index] src[i] = true :=
        hfit _ hold _ (List.getElem_mem _)
      have hfit1 : ∀ old ∈ (dst.set index src[i]).drop (index + 1), ∀ v ∈ src,
          fits old v = true := by
        intro old ho v hv
        rw [List.drop_set_of_lt _ _ (Nat.lt_succ_self index)] at ho
        refine hfit old ?_ v hv
        have : dst.drop (index + 1) = (dst.drop index).drop 1 := by simp [List.drop_drop]
        rw [this] at ho
        exact List.mem_of_mem_drop ho
      have h := ih (i + 1) (index + 1) (dst.set index src[i]) (by simp at hsrc; omega)
        (by simp at hdst ⊢; omega) hfit1
      have htake : (dst.set index src[i]).take (index + 1) = dst.take index ++ [src[i]] := by
        rw [List.set_eq_take_append_cons_drop, if_pos hidx]
        have hlen : (dst.take index).length = index := by simp; omega
        rw [List.take_append_eq_append_take, hlen]
        simp [List.take_take]
      have hdrop : (dst.set index src[i]).drop (index + 1 + ms.count true) =
          dst.drop (index + 1 + ms.count true) :=
        List.drop_set_of_lt _ _ (by omega)
      have hpick : pick src (trueIndicesFrom i (true :: ms)) =
          src[i] :: pick src (trueIndicesFrom (i + 1) ms) := by
        simp [pick, trueIndicesFrom, List.filterMap_cons, List.getElem?_eq_getElem hi]
      have hcount : index + (true :: ms).count true = index + 1 + ms.count true := by
        simp; omega
      rw [hpick, hcount]
      simp only [copyLoop, List.getElem?_eq_getElem hi, List.getElem?_eq_getElem hidx, hf,
        if_true]
      rw [h, htake, hdrop]
      simp

/-! ## Expression caches -/

namespace Expr

variable {K α : Type}

theorem valueOf_invalidate (k : K) (e : Expr K α) : e.invalidate.valueOf k = e.valueOf k := by
  induction e <;> simp_all [invalidate, valueOf]

theorem jacobianOf_invalidate (k : K) (e : Expr K α) :
    e.invalidate.jacobianOf k = e.jacobianOf k := by
  induction e <;> simp_all [invalidate, jacobianOf, valueOf_invalidate]

theorem valueOf_computeValue (k k1 : K) (e : Expr K α) :
    (e.computeValue k1).valueOf k = e.valueOf k := by
  induction e with
  | leaf vv jv v j qv qj => cases vv <;> simp [computeValue, valueOf]
  | unary vv jv v j cv cj c ih => cases vv <;> simp [computeValue, valueOf, ih]
  | binary vv jv v j cv cj l r ihl ihr => cases vv <;> simp [computeValue, valueOf, ihl, ihr]

theorem jacobianOf_computeValue (k k1 : K) (e : Expr K α) :
    (e.computeValue k1).jacobianOf k = e.jacobianOf k := by
  induction e with
  | leaf vv jv v j qv qj => cases vv <;> simp [computeValue, jacobianOf]
  | unary vv jv v j cv cj c ih =>
    cases vv <;> simp [computeValue, jacobianOf, ih, valueOf_computeValue]
  | binary vv jv v j cv cj l r ihl ihr =>
    cases vv <;> simp [computeValue, jacobianOf, ihl, ihr, valueOf_computeValue]

theorem valueOf_computeJacobian (k k1 : K) (e : Expr K α) :
    (e.computeJacobian k1).valueOf k = e.valueOf k := by
  induction e with
  | leaf vv jv v j qv qj => cases jv <;> simp [computeJacobian, valueOf]
  | unary vv jv v j cv cj c ih =>
    cases jv <;> simp [computeJacobian, valueOf, ih, valueOf_computeValue]
  | binary vv jv v j cv cj l r ihl ihr =>
    cases jv <;> simp [computeJacobian, valueOf, ihl, ihr, valueOf_computeValue]

theorem jacobianOf_computeJacobian (k k1 : K) (e : Expr K α) :
    (e.computeJacobian k1).jacobianOf k = e.jacobianOf k := by
  induction e with
  | leaf vv jv v j qv qj => cases jv <;> simp [computeJacobian, jacobianOf]
  | unary vv jv v j cv cj c ih =>
    cases jv <;> simp [computeJacobian, jacobianOf, ih, valueOf_computeValue,
      jacobianOf_computeValue, valueOf_computeJacobian]
  | binary vv jv v j cv cj l r ihl ihr =>
    cases jv <;> simp [computeJacobian, jacobianOf, ihl, ihr, valueOf_computeValue,
      jacobianOf_computeValue, valueOf_computeJacobian]

theorem fresh_invalidate (k : K) (e : Expr K α) : e.invalidate.Fresh k := by
  induction e <;> simp_all [invalidate, Fresh]

theorem fresh_value (k : K) (e : Expr K α) (h : e.Fresh k) (hv : e.vValid = true) :
    e.value = e.valueOf k := by
  cases e <;> simp_all [Fresh, vValid, value, valueOf]

theorem fresh_jacobian (k : K) (e : Expr K α) (h : e.Fresh k) (hj : e.jValid = true) :
    e.jacobian = e.jacobianOf k := by
  cases e <;> simp_all [Fresh, jValid, jacobian, jacobianOf]

theorem jValid_computeValue (k : K) (e : Expr K α) :
    (e.computeValue k).jValid = e.jValid := by
  cases e with
  | leaf vv jv v j qv qj => cases vv <;> simp [computeValue, jValid]
  | unary vv jv v j cv cj c => cases vv <;> simp [computeValue, jValid]
  | binary vv jv v j cv cj l r => cases vv <;> simp [computeValue, jValid]

theorem fresh_computeValue (k : K) (e : Expr K α) (h : e.Fresh k) :
    (e.computeValue k).Fresh k ∧ (e.computeValue k).vValid = true := by
  induction e with
  | leaf vv jv v j qv qj =>
    cases vv
    · simp only [Fresh] at h
      simp only [computeValue, Bool.false_eq_true, if_false, Fresh, vValid, and_true,
        true_and, forall_const]
      exact h.2
    · exact ⟨by simpa [computeValue] using h, by simp [computeValue, vValid]⟩
  | unary vv jv v j cv cj c ih =>
    cases vv
    · simp only [Fresh] at h
      obtain ⟨hc, _⟩ := ih h.2.2
      have hval := fresh_value k _ hc (ih h.2.2).2
      simp only [computeValue, Bool.false_eq_true, if_false, Fresh, vValid,
        valueOf_computeValue, jacobianOf_computeValue, hval, and_true, true_and, forall_const]
      exact ⟨h.2.1, hc⟩
    · exact ⟨by simpa [computeValue] using h, by simp [computeValue, vValid]⟩
  | binary vv jv v j cv cj l r ihl ihr =>
    cases vv
    · simp only [Fresh] at h
      obtain ⟨hl, hlv⟩ := ihl h.2.2.1
      obtain ⟨hr, hrv⟩ := ihr h.2.2.2
      have hvl := fresh_value k _ hl hlv
      have hvr := fresh_value k _ hr hrv
      simp only [computeValue, Bool.false_eq_true, if_false, Fresh, vValid,
        valueOf_computeValue, jacobianOf_computeValue, hvl, hvr, and_true, true_and,
        forall_const]
      exact ⟨h.2.1, hl, hr⟩
    · exact ⟨by simpa [computeValue] using h, by simp [computeValue, vValid]⟩

theorem fresh_computeJacobian (k : K) (e : Expr K α) (h : e.Fresh k) :
    (e.computeJacobian k).Fresh k ∧ (e.computeJacobian k).jValid = true := by
  induction e with
  | leaf vv jv v j qv qj =>
    cases jv
    · simp only [Fresh] at h
      simp only [computeJacobian, Bool.false_eq_true, if_false, Fresh, jValid, and_true,
        true_and, forall_const]
      exact h.1
    · exact ⟨by simpa [computeJacobian] using h, by simp [computeJacobian, jValid]⟩
  | unary vv jv v j cv cj c ih =>
    cases jv
    · simp only [Fresh] at h
      obtain ⟨hc, hcj⟩ := ih h.2.2
      obtain ⟨hc1, hc1v⟩ := fresh_computeValue k _ hc
      have hc1j : ((c.computeJacobian k).computeValue k).jValid = true := by
        rw [jValid_computeValue]; exact hcj
      have hval := fresh_value k _ hc1 hc1v
      have hjac := fresh_jacobian k _ hc1 hc1j
      simp only [computeJacobian, Bool.false_eq_true, if_false, Fresh, jValid,
        valueOf_computeValue, jacobianOf_computeValue, valueOf_computeJacobian,
        jacobianOf_computeJacobian, hval, hjac, and_true, true_and, forall_const]
      exact ⟨h.1, hc1⟩
    · exact ⟨by simpa [computeJacobian] using h, by simp [computeJacobian, jValid]⟩
  | binary vv jv v j cv cj l r ihl ihr =>
    cases jv
    · simp only [Fresh] at h
      obtain ⟨hl, hlj⟩ := ihl h.2.2.1
      obtain ⟨hr, hrj⟩ := ihr h.2.2.2
      obtain ⟨hl1, hl1v⟩ := fresh_computeValue k _ hl
      obtain ⟨hr1, hr1v⟩ := fresh_computeValue k _ hr
      have hl1j : ((l.computeJacobian k).computeValue k).jValid = true := by
        rw [jValid_computeValue]; exact hlj
      have hr1j : ((r.computeJacobian k).computeValue k).jValid = true := by
        rw [jValid_computeValue]; exact hrj
      have hvl := fresh_value k _ hl1 hl1v
      have hvr := fresh_value k _ hr1 hr1v
      have hjl := fresh_jacobian k _ hl1 hl1j
      have hjr := fresh_jacobian k _ hr1 hr1j
      simp only [computeJacobian, Bool.false_eq_true, if_false, Fresh, jValid,
        valueOf_computeValue, jacobianOf_computeValue, valueOf_computeJacobian,
        jacobianOf_computeJacobian, hvl, hvr, hjl, hjr, and_true, true_and, forall_const]
      exact ⟨h.1, hl1, hr1⟩
    · exact ⟨by simpa [computeJacobian] using h, by simp [computeJacobian, jValid]⟩

/-- After `invalidate` the next `computeValue` caches what the expression denotes
for the kinematic data it is given, whatever was cached before. -/
theorem value_computeValue_invalidate (k : K) (e : Expr K α) :
    (e.invalidate.computeValue k).value = e.valueOf k := by
  obtain ⟨h, hv⟩ := fresh_computeValue k _ (fresh_invalidate k e)
  rw [fresh_value k _ h hv, valueOf_computeValue, valueOf_invalidate]

/-- After `invalidate` the next `computeJacobian` caches the Jacobian the
expression denotes for the kinematic data it is given. -/
theorem jacobian_computeJacobian_invalidate (k : K) (e : Expr K α) :
    (e.invalidate.computeJacobian k).jacobian = e.jacobianOf k := by
  obtain ⟨h, hj⟩ := fresh_computeJacobian k _ (fresh_invalidate k e)
  rw [fresh_jacobian k _ h hj, jacobianOf_computeJacobian, jacobianOf_invalidate]

end Expr

/-! ## Evaluation of a masked function -/

/-- The copy loop run from the start of the mask, as `impl_compute` and
`impl_jacobian` run it. -/
theorem copyLoop_start {β : Type} (fits : β → β → Bool) (src : List β) (mask : List Bool)
    (dst : List β) (hsrc : mask.length ≤ src.length) (hdst : mask.count true ≤ dst.length)
    (hfit : ∀ old ∈ dst, ∀ v ∈ src, fits old v = true) :
    copyLoop fits src mask 0 0 dst =
      some (pick src (trueIndices mask) ++ dst.drop (mask.count true)) := by
  have h := copyLoop_eq fits src mask 0 0 dst (by omega) (by omega) (by simpa using hfit)
  simpa [trueIndices] using h

theorem trueIndices_lt (mask : List Bool) (t : Nat) (h : t ∈ trueIndices mask) :
    t < mask.length := by
  have := trueIndicesFrom_lt mask 0 t h
  omega

/-- The buffer the copy loop leaves has the length of the buffer it was given. -/
theorem copied_length {β : Type} (src : List β) (mask : List Bool) (dst : List β)
    (hsrc : mask.length ≤ src.length) (hdst : mask.count true ≤ dst.length) :
    (pick src (trueIndices mask) ++ dst.drop (mask.count true)).length = dst.length := by
  have hp : (pick src (trueIndices mask)).length = mask.count true := by
    rw [pick_length src _ (fun t ht => lt_of_lt_of_le (trueIndices_lt mask t ht) hsrc)]
    exact trueIndicesFrom_length mask 0
  simp [hp]
  omega

/-- Entry `j` of the buffer the copy loop leaves, for `j` below the number of
true entries: the entry of `src` at the `j`-th true index. -/
theorem copied_head {β : Type} (src : List β) (mask : List Bool) (dst : List β)
    (hsrc : mask.length ≤ src.length) (j t : Nat) (hj : (trueIndices mask)[j]? = some t) :
    ∃ v, src[t]? = some v ∧
      (pick src (trueIndices mask) ++ dst.drop (mask.count true))[j]? = some v := by
  have hin : ∀ u ∈ trueIndices mask, u < src.length :=
    fun u hu => lt_of_lt_of_le (trueIndices_lt mask u hu) hsrc
  have ht : t < src.length := by
    obtain ⟨hlt, heq⟩ := List.getElem?_eq_some_iff.1 hj
    exact hin t (heq ▸ List.getElem_mem hlt)
  have hjlt : j < (pick src (trueIndices mask)).length := by
    rw [pick_length src _ hin]
    exact (List.getElem?_eq_some_iff.1 hj).1
  refine ⟨src[t], List.getElem?_eq_getElem ht, ?_⟩
  rw [List.getElem?_append_left hjlt, pick_getElem? src _ hin j t hj,
    List.getElem?_eq_getElem ht]

/-- Entry `j` of the buffer the copy loop leaves, for `j` from the number of true
entries on: the entry the buffer held. -/
theorem copied_tail {β : Type} (src : List β) (mask : List Bool) (dst : List β)
    (hsrc : mask.length ≤ src.length) (j : Nat) (hj : mask.count true ≤ j) :
    (pick src (trueIndices mask) ++ dst.drop (mask.count true))[j]? = dst[j]? := by
  have hp : (pick src (trueIndices mask)).length = mask.count true := by
    rw [pick_length src _ (fun t ht => lt_of_lt_of_le (trueIndices_lt mask t ht) hsrc)]
    exact trueIndicesFrom_length mask 0
  rw [List.getElem?_append_right (by omega), hp, List.getElem?_drop]
  congr 1
  omega

theorem pick_all_true {β : Type} (src : List β) (ms : List Bool) (i : Nat)
    (h : ∀ b ∈ ms, b = true) (hsrc : i + ms.length ≤ src.length) :
    pick src (trueIndicesFrom i ms) = (src.drop i).take ms.length := by
  induction ms generalizing i with
  | nil => simp [trueIndicesFrom, pick]
  | cons m ms ih =>
    have hm : m = true := h m (List.mem_cons_self _ _)
    subst hm
    have hi : i < src.length := by simp at hsrc; omega
    have hrec := ih (i + 1) (fun b hb => h b (List.mem_cons_of_mem _ hb))
      (by simp at hsrc; omega)
    have hpick : pick src (trueIndicesFrom i (true :: ms)) =
        src[i] :: pick src (trueIndicesFrom (i + 1) ms) := by
      simp [pick, trueIndicesFrom, List.filterMap_cons, List.getElem?_eq_getElem hi]
    rw [hpick, hrec, List.drop_eq_getElem_cons hi, List.length_cons, List.take_succ_cons]

/-- With every entry of the mask true, a buffer as long as the mask becomes the
source. -/
theorem copied_all_true {β : Type} (src : List β) (mask : List Bool) (dst : List β)
    (hsrc : mask.length = src.length) (hk : mask.count true = mask.length)
    (hn : dst.length = mask.length) :
    pick src (trueIndices mask) ++ dst.drop (mask.count true) = src := by
  have hall : ∀ b ∈ mask, b = true := fun b hb => (List.count_eq_length.1 hk b hb).symm
  have := pick_all_true src mask 0 hall (by omega)
  rw [trueIndices, this, hk, ← hn, List.drop_length, hn, hsrc]
  simp

namespace SymbolicFunction

variable {Config K α : Type}

theorem refreshValue_value (F : SymbolicFunction Config K α) (q : Config) :
    (F.refreshValue q).expr_.value = F.unmaskedValue q := by
  simp [refreshValue, unmaskedValue, Device.currentConfiguration,
    Device.computeForwardKinematics, Expr.value_computeValue_invalidate]

theorem refreshJacobian_jacobian (F : SymbolicFunction Config K α) (q : Config) :
    (F.refreshJacobian q).expr_.jacobian = F.unmaskedJacobian q := by
  simp [refreshJacobian, unmaskedJacobian, Device.currentConfiguration,
    Device.computeForwardKinematics, Expr.jacobian_computeJacobian_invalidate]

/-- What `impl_compute` returns when the mask is no longer than the unmasked value
and the buffer has room for the true entries. -/
theorem impl_compute_eq (F : SymbolicFunction Config K α) (result : List α) (q : Config)
    (hmask : F.mask_.length ≤ (F.unmaskedValue q).length)
    (hres : F.mask_.count true ≤ result.length) :
    F.impl_compute result q =
      some (F.refreshValue q,
        pick (F.unmaskedValue q) (trueIndices F.mask_) ++ result.drop (F.mask_.count true)) := by
  have hm : (F.refreshValue q).mask_ = F.mask_ := rfl
  simp only [impl_compute, refreshValue_value, hm]
  rw [copyLoop_start fitsScalar _ _ _ hmask hres (by intros; rfl)]
  rfl

/-- What `impl_jacobian` returns when the mask is no longer than the unmasked
Jacobian, the buffer has room for the true rows, and the rows of the buffer and
of the unmasked Jacobian have `c` columns. -/
theorem impl_jacobian_eq (F : SymbolicFunction Config K α) (jacobian : List (List α))
    (q : Config) (c : Nat)
    (hmask : F.mask_.length ≤ (F.unmaskedJacobian q).length)
    (hres : F.mask_.count true ≤ jacobian.length)
    (hbuf : ∀ row ∈ jacobian, row.length = c)
    (hjac : ∀ row ∈ F.unmaskedJacobian q, row.length = c) :
    F.impl_jacobian jacobian q =
      some (F.refreshJacobian q,
        pick (F.unmaskedJacobian q) (trueIndices F.mask_) ++
          jacobian.drop (F.mask_.count true)) := by
  have hm : (F.refreshJacobian q).mask_ = F.mask_ := rfl
  simp only [impl_jacobian, refreshJacobian_jacobian, hm]
  rw [copyLoop_start fitsRow _ _ _ hmask hres
    (by intro old ho v hv; simp [fitsRow, hbuf old ho, hjac v hv])]
  rfl

end SymbolicFunction

/-- C1: for an unmasked value of length `n` and a mask of length `n` with `k` true
entries, `impl_compute` succeeds, writes entries `0..k-1` of the result and nothing
else, and entry `j` is the unmasked value at the `j`-th true index of the mask,
the true indices being taken in increasing order; with `k = 0` the buffer is left
as it was, with `k = n` a buffer of `n` entries becomes the unmasked value. -/
theorem impl_compute_masked_value {Config K α : Type} (F : SymbolicFunction Config K α)
    (result : List α) (q : Config)
    (hmask : F.mask_.length = (F.unmaskedValue q).length)
    (hres : F.mask_.count true ≤ result.length) :
    ∃ (F1 : SymbolicFunction Config K α) (result1 : List α),
      F.impl_compute result q = some (F1, result1) ∧
      F1.expr_.value = F.unmaskedValue q ∧
      result1.length = result.length ∧
      (trueIndices F.mask_).length = F.mask_.count true ∧
      (trueIndices F.mask_).Pairwise (fun a b => a < b) ∧
      (∀ t, t ∈ trueIndices F.mask_ ↔ F.mask_[t]? = some true) ∧
      (∀ j t : Nat, (trueIndices F.mask_)[j]? = some t →
        ∃ v, (F.unmaskedValue q)[t]? = some v ∧ result1[j]? = some v) ∧
      (∀ j : Nat, F.mask_.count true ≤ j → result1[j]? = result[j]?) ∧
      (F.mask_.count true = 0 → result1 = result) ∧
      (F.mask_.count true = F.mask_.length → result.length = F.mask_.length →
        result1 = F.unmaskedValue q) := by
  have hle : F.mask_.length ≤ (F.unmaskedValue q).length := le_of_eq hmask
  refine ⟨_, _, F.impl_compute_eq result q hle hres, F.refreshValue_value q,
    copied_length _ _ _ hle hres, trueIndicesFrom_length _ 0, trueIndicesFrom_pairwise _ 0,
    mem_trueIndices _, fun j t hj => copied_head _ _ _ hle j t hj,
    fun j hj => copied_tail _ _ _ hle j hj, ?_, ?_⟩
  · intro h0
    have hnil : trueIndices F.mask_ = [] :=
      List.length_eq_zero.1 ((trueIndicesFrom_length F.mask_ 0).trans h0)
    simp [hnil, h0, pick]
  · intro hk hn
    exact copied_all_true _ _ _ hmask hk hn

theorem impl_compute_masked_value_witness :
    exampleFunction.mask_.length = (exampleFunction.unmaskedValue 5).length ∧
    exampleFunction.mask_.count true ≤ [(0 : Int), 0, 0].length ∧
    ∃ (F1 : SymbolicFunction Nat Nat Int) (result1 : List Int),
      exampleFunction.impl_compute [0, 0, 0] 5 = some (F1, result1) ∧
      result1.length = 3 ∧ result1[1]? = some 15 ∧ result1[2]? = some 0 := by
  obtain ⟨F1, result1, h, _, hlen, _, _, _, hhead, htail, _, _⟩ :=
    impl_compute_masked_value exampleFunction [0, 0, 0] 5 rfl (by decide)
  obtain ⟨v, hv, hr⟩ := hhead 1 2 rfl
  have hv15 : v = 15 := by
    have h15 : (exampleFunction.unmaskedValue 5)[2]? = some 15 := by decide
    rw [h15] at hv
    exact (Option.some.inj hv).symm
  refine ⟨rfl, by decide, F1, result1, h, hlen, hv15 ▸ hr, ?_⟩
  rw [htail 2 (by decide)]
  rfl

/-- C2: for an unmasked Jacobian of `n` rows and a mask of length `n` with `k` true
entries, `impl_jacobian` succeeds on a buffer of rows as wide as the rows of the
unmasked Jacobian, writes rows `0..k-1` of the buffer and nothing else, and row `j`
is the unmasked row at the `j`-th true index of the mask, unmodified, the true
indices being taken in increasing order. -/
theorem impl_jacobian_masked_rows {Config K α : Type} (F : SymbolicFunction Config K α)
    (jacobian : List (List α)) (q : Config) (c : Nat)
    (hmask : F.mask_.length = (F.unmaskedJacobian q).length)
    (hres : F.mask_.count true ≤ jacobian.length)
    (hbuf : ∀ row ∈ jacobian, row.length = c)
    (hjac : ∀ row ∈ F.unmaskedJacobian q, row.length = c) :
    ∃ (F1 : SymbolicFunction Config K α) (jacobian1 : List (List α)),
      F.impl_jacobian jacobian q = some (F1, jacobian1) ∧
      F1.expr_.jacobian = F.unmaskedJacobian q ∧
      jacobian1.length = jacobian.length ∧
      (trueIndices F.mask_).length = F.mask_.count true ∧
      (trueIndices F.mask_).Pairwise (fun a b => a < b) ∧
      (∀ t, t ∈ trueIndices F.mask_ ↔ F.mask_[t]? = some true) ∧
      (∀ j t : Nat, (trueIndices F.mask_)[j]? = some t →
        ∃ row, (F.unmaskedJacobian q)[t]? = some row ∧ jacobian1[j]? = some row) ∧
      (∀ j : Nat, F.mask_.count true ≤ j → jacobian1[j]? = jacobian[j]?) := by
  have hle : F.mask_.length ≤ (F.unmaskedJacobian q).length := le_of_eq hmask
  exact ⟨_, _, F.impl_jacobian_eq jacobian q c hle hres hbuf hjac,
    F.refreshJacobian_jacobian q, copied_length _ _ _ hle hres, trueIndicesFrom_length _ 0,
    trueIndicesFrom_pairwise _ 0, mem_trueIndices _,
    fun j t hj => copied_head _ _ _ hle j t hj, fun j hj => copied_tail _ _ _ hle j hj⟩

theorem impl_jacobian_masked_rows_witness :
    exampleFunction.mask_.length = (exampleFunction.unmaskedJacobian 5).length ∧
    exampleFunction.mask_.count true ≤ [[(0 : Int)], [0], [7]].length ∧
    (∀ row ∈ [[(0 : Int)], [0], [7]], row.length = 1) ∧
    (∀ row ∈ exampleFunction.unmaskedJacobian 5, row.length = 1) ∧
    ∃ (F1 : SymbolicFunction Nat Nat Int) (jacobian1 : List (List Int)),
      exampleFunction.impl_jacobian [[0], [0], [7]] 5 = some (F1, jacobian1) ∧
      jacobian1.length = 3 ∧ jacobian1[1]? = some [3] ∧ jacobian1[2]? = some [7] := by
  have hbuf : ∀ row ∈ [[(0 : Int)], [0], [7]], row.length = 1 := by decide
  have hjac : ∀ row ∈ exampleFunction.unmaskedJacobian 5, row.length = 1 := by decide
  obtain ⟨F1, jacobian1, h, _, hlen, _, _, _, hhead, htail⟩ :=
    impl_jacobian_masked_rows exampleFunction [[0], [0], [7]] 5 1 rfl (by decide) hbuf hjac
  obtain ⟨row, hrow, hr⟩ := hhead 1 2 rfl
  have hrow3 : row = [3] := by
    have h3 : (exampleFunction.unmaskedJacobian 5)[2]? = some [3] := by decide
    rw [h3] at hrow
    exact (Option.some.inj hrow).symm
  refine ⟨rfl, by decide, hbuf, hjac, F1, jacobian1, h, hlen, hrow3 ▸ hr, ?_⟩
  rw [htail 2 (by decide)]
  rfl

/-- C3: at the mask `(true, false, true)` over an expression of three rows the
constructor declares the output size 3, the size of the unmasked value, while the
mask has two true entries. -/
theorem new_outputSize_is_unmasked_size :
    exampleFunction.outputSize = 3 ∧ exampleFunction.mask_.count true = 2 ∧
      exampleFunction.outputSize ≠ exampleFunction.mask_.count true := by
  decide

/-- C4: at a mask of length 1 over an expression of three rows the factory `create`
fails, and the public constructor returns a function holding the mask of length 1,
neither truncated nor padded. -/
theorem new_accepts_mismatched_mask :
    exampleExpr.value.length = 3 ∧
    (SymbolicFunction.create "example" exampleDevice exampleExpr [true]).isNone = true ∧
    (SymbolicFunction.new "example" exampleDevice exampleExpr [true]).mask_ = [true] := by
  decide

namespace SymbolicFunction

variable {Config K α : Type}

theorem agrees_refl (F : SymbolicFunction Config K α) : F.Agrees F :=
  ⟨rfl, rfl, fun _ => rfl, fun _ => rfl⟩

theorem agrees_refreshValue (F G : SymbolicFunction Config K α) (q : Config)
    (h : F.Agrees G) : F.Agrees (G.refreshValue q) := by
  obtain ⟨h1, h2, h3, h4⟩ := h
  refine ⟨h1, h2, fun k => ?_, fun k => ?_⟩
  · simp [refreshValue, Expr.valueOf_computeValue, Expr.valueOf_invalidate, h3]
  · simp [refreshValue, Expr.jacobianOf_computeValue, Expr.jacobianOf_invalidate, h4]

theorem agrees_refreshJacobian (F G : SymbolicFunction Config K α) (q : Config)
    (h : F.Agrees G) : F.Agrees (G.refreshJacobian q) := by
  obtain ⟨h1, h2, h3, h4⟩ := h
  refine ⟨h1, h2, fun k => ?_, fun k => ?_⟩
  · simp [refreshJacobian, Expr.valueOf_computeJacobian, Expr.valueOf_invalidate, h3]
  · simp [refreshJacobian, Expr.jacobianOf_computeJacobian, Expr.jacobianOf_invalidate, h4]

theorem agrees_call (F G G1 : SymbolicFunction Config K α) (c : Call Config α)
    (h : F.Agrees G) (hc : G.call c = some G1) : F.Agrees G1 := by
  cases c with
  | value result q =>
    simp only [call, impl_compute, Option.map_map, Option.map_eq_some'] at hc
    obtain ⟨_, _, rfl⟩ := hc
    exact agrees_refreshValue F G q h
  | jacobian jacobian q =>
    simp only [call, impl_jacobian, Option.map_map, Option.map_eq_some'] at hc
    obtain ⟨_, _, rfl⟩ := hc
    exact agrees_refreshJacobian F G q h

theorem agrees_after (F : SymbolicFunction Config K α) (calls : List (Call Config α)) :
    ∀ G G1 : SymbolicFunction Config K α, F.Agrees G → G.after calls = some G1 →
      F.Agrees G1 := by
  induction calls with
  | nil =>
    intro G G1 h hc
    simp only [after, Option.some.injEq] at hc
    exact hc ▸ h
  | cons c cs ih =>
    intro G G1 h hc
    simp only [after] at hc
    cases hcall : G.call c with
    | none => simp [hcall] at hc
    | some G2 =>
      rw [hcall] at hc
      exact ih G2 G1 (agrees_call F G G2 c h hcall) hc

theorem unmaskedValue_of_agrees (F G : SymbolicFunction Config K α) (q : Config)
    (h : F.Agrees G) : G.unmaskedValue q = F.unmaskedValue q := by
  obtain ⟨_, h2, h3, _⟩ := h
  simp [unmaskedValue, h2, h3]

theorem unmaskedJacobian_of_agrees (F G : SymbolicFunction Config K α) (q : Config)
    (h : F.Agrees G) : G.unmaskedJacobian q = F.unmaskedJacobian q := by
  obtain ⟨_, h2, _, h4⟩ := h
  simp [unmaskedJacobian, h2, h4]

theorem impl_compute_written (F : SymbolicFunction Config K α) (result : List α)
    (q : Config) :
    (F.impl_compute result q).map Prod.snd =
      copyLoop fitsScalar (F.unmaskedValue q) F.mask_ 0 0 result := by
  have hm : (F.refreshValue q).mask_ = F.mask_ := rfl
  simp [impl_compute, refreshValue_value, hm, Option.map_map, Function.comp_def]

theorem impl_jacobian_written (F : SymbolicFunction Config K α)
    (jacobian : List (List α)) (q : Config) :
    (F.impl_jacobian jacobian q).map Prod.snd =
      copyLoop fitsRow (F.unmaskedJacobian q) F.mask_ 0 0 jacobian := by
  have hm : (F.refreshJacobian q).mask_ = F.mask_ := rfl
  simp [impl_jacobian, refreshJacobian_jacobian, hm, Option.map_map, Function.comp_def]

end SymbolicFunction

/-- C10: whatever calls of `value` and `jacobian` were made before, at whatever
configurations and from whatever cached state, a call at `q` leaves the robot set
to `q` with the kinematic data of `q` and the expression caching what it denotes
for `q`; the buffer written by `value (q)` (by `jacobian (q)`) is the one the copy
loop produces from the unmasked value (Jacobian) of `q`, the same as without the
earlier calls. -/
theorem value_jacobian_independent_of_history {Config K α : Type}
    (F F1 : SymbolicFunction Config K α) (calls : List (Call Config α))
    (h : F.after calls = some F1) (q : Config) (result : List α)
    (jacobian : List (List α)) :
    (F1.impl_compute result q).map Prod.snd =
        copyLoop fitsScalar (F.unmaskedValue q) F.mask_ 0 0 result ∧
    (F1.impl_jacobian jacobian q).map Prod.snd =
        copyLoop fitsRow (F.unmaskedJacobian q) F.mask_ 0 0 jacobian ∧
    (F1.impl_compute result q).map Prod.snd = (F.impl_compute result q).map Prod.snd ∧
    (F1.impl_jacobian jacobian q).map Prod.snd =
        (F.impl_jacobian jacobian q).map Prod.snd ∧
    (∀ (F2 : SymbolicFunction Config K α) (r : List α),
      F1.impl_compute result q = some (F2, r) →
        F2.robot_.currentConfiguration_ = q ∧
        F2.robot_.data = F.robot_.forwardKinematics q ∧
        F2.expr_.value = F.unmaskedValue q) ∧
    (∀ (F2 : SymbolicFunction Config K α) (r : List (List α)),
      F1.impl_jacobian jacobian q = some (F2, r) →
        F2.robot_.currentConfiguration_ = q ∧
        F2.robot_.data = F.robot_.forwardKinematics q ∧
        F2.expr_.jacobian = F.unmaskedJacobian q) := by
  have hag := SymbolicFunction.agrees_after F calls F F1 (SymbolicFunction.agrees_refl F) h
  have hv := SymbolicFunction.unmaskedValue_of_agrees F F1 q hag
  have hj := SymbolicFunction.unmaskedJacobian_of_agrees F F1 q hag
  have hc : (F1.impl_compute result q).map Prod.snd =
      copyLoop fitsScalar (F.unmaskedValue q) F.mask_ 0 0 result := by
    rw [SymbolicFunction.impl_compute_written, hv, hag.1]
  have hJ : (F1.impl_jacobian jacobian q).map Prod.snd =
      copyLoop fitsRow (F.unmaskedJacobian q) F.mask_ 0 0 jacobian := by
    rw [SymbolicFunction.impl_jacobian_written, hj, hag.1]
  refine ⟨hc, hJ, by rw [hc, SymbolicFunction.impl_compute_written],
    by rw [hJ, SymbolicFunction.impl_jacobian_written], ?_, ?_⟩
  · intro F2 r h2
    simp only [SymbolicFunction.impl_compute, Option.map_eq_some', Prod.mk.injEq] at h2
    obtain ⟨_, _, rfl, _⟩ := h2
    refine ⟨rfl, ?_, ?_⟩
    · simp [SymbolicFunction.refreshValue, Device.computeForwardKinematics,
        Device.currentConfiguration, hag.2.1]
    · rw [SymbolicFunction.refreshValue_value, hv]
  · intro F2 r h2
    simp only [SymbolicFunction.impl_jacobian, Option.map_eq_some', Prod.mk.injEq] at h2
    obtain ⟨_, _, rfl, _⟩ := h2
    refine ⟨rfl, ?_, ?_⟩
    · simp [SymbolicFunction.refreshJacobian, Device.computeForwardKinematics,
        Device.currentConfiguration, hag.2.1]
    · rw [SymbolicFunction.refreshJacobian_jacobian, hj]

theorem value_jacobian_independent_of_history_witness :
    exampleFunction.after [Call.value [0, 0, 0] 7, Call.jacobian [[0], [0], [0]] 9] =
      some ((exampleFunction.refreshValue 7).refreshJacobian 9) ∧
    (((exampleFunction.refreshValue 7).refreshJacobian 9).impl_compute [0, 0, 0] 5).map
        Prod.snd = some [5, 15, 0] := by
  have h : exampleFunction.after [Call.value [0, 0, 0] 7, Call.jacobian [[0], [0], [0]] 9] =
      some ((exampleFunction.refreshValue 7).refreshJacobian 9) := rfl
  refine ⟨h, ?_⟩
  rw [(value_jacobian_independent_of_history exampleFunction _ _ h 5 [0, 0, 0] []).1]
  decide

/-! ## The update of the reduced Jacobians -/

theorem foldl_add_eq_sum {α : Type} [Semiring α] (f : Nat → α) (n : Nat) :
    (List.range n).foldl (fun acc k => acc + f k) 0 = ∑ k in Finset.range n, f k := by
  induction n with
  | zero => simp
  | succ n ih => simp [List.range_succ, List.foldl_append, Finset.sum_range_succ, ih]

/-- The reduced Jacobian after the loop body, coefficient by coefficient. -/
theorem accumulate_coeff {Config α : Type} [Semiring α] (e : ExplicitSolver Config α)
    (q : Config) (d : Data α) (r c : Nat) :
    (d.accumulate e.outDers (e.reducedJacobian q)).reducedJ.coeff r c =
      d.reducedJ.coeff r c + projected e q d.jacobian r c := by
  simp only [Data.accumulate, ExplicitSolver.reducedJacobian, projected]
  rw [foldl_add_eq_sum]

theorem accumulate_fits {Config α : Type} [Semiring α] (e : ExplicitSolver Config α)
    (Je : Mat α) (d : Data α) (h : d.Fits e) : (d.accumulate e.outDers Je).Fits e := h

namespace HybridSolver

variable {Config Stack α : Type}

theorem updateEntry_eq [Semiring α] (e : ExplicitSolver Config α) (Je : Mat α) (d : Data α)
    (hout : ∀ i ∈ e.outDers, i < e.derSize) (hrows : Je.rows = e.outDers.length)
    (hcols : Je.cols = e.inDers.length) (hd : d.Fits e) :
    updateEntry e.outDers Je d = some (d.accumulate e.outDers Je) := by
  obtain ⟨h1, h2, h3⟩ := hd
  have hall : (e.outDers.all fun j => decide (j < d.jacobian.cols)) = true := by
    rw [List.all_eq_true]
    intro i hi
    simpa [h1] using hout i hi
  simp only [updateEntry, Mat.rviewTranspose, hall, if_true, Mat.mul, hrows, Mat.addAssign, h2,
    h3, hcols, and_self, Data.accumulate]

theorem updateEntries_spec [Semiring α] (e : ExplicitSolver Config α) (Je : Mat α)
    (hout : ∀ i ∈ e.outDers, i < e.derSize) (hrows : Je.rows = e.outDers.length)
    (hcols : Je.cols = e.inDers.length) (order : List Nat) :
    ∀ datas : List (Data α), order.Nodup → (∀ i ∈ order, i < datas.length) →
      (∀ d ∈ datas, d.Fits e) →
      ∃ datas1, updateEntries e.outDers Je order datas = some datas1 ∧
        datas1.length = datas.length ∧
        ∀ i : Nat, datas1[i]? =
          if i ∈ order then (datas[i]?).map (Data.accumulate e.outDers Je) else datas[i]? := by
  induction order with
  | nil =>
    intro datas _ _ _
    exact ⟨datas, rfl, rfl, fun i => by simp⟩
  | cons i order ih =>
    intro datas hnd hlt hfit
    have hi : i < datas.length := hlt i (List.mem_cons_self _ _)
    have hni : i ∉ order := (List.nodup_cons.1 hnd).1
    have hfit1 : ∀ d ∈ datas.set i (datas[i].accumulate e.outDers Je), d.Fits e := by
      intro d hd
      rcases List.mem_or_eq_of_mem_set hd with h | h
      · exact hfit d h
      · exact h ▸ accumulate_fits e Je _ (hfit _ (List.getElem_mem _))
    obtain ⟨datas1, h1, h2, h3⟩ := ih (datas.set i (datas[i].accumulate e.outDers Je))
      (List.nodup_cons.1 hnd).2
      (fun j hj => by simpa using hlt j (List.mem_cons_of_mem _ hj)) hfit1
    refine ⟨datas1, ?_, by simpa using h2, ?_⟩
    · simp only [updateEntries, List.getElem?_eq_getElem hi,
        updateEntry_eq e Je _ hout hrows hcols (hfit _ (List.getElem_mem _))]
      exact h1
    · intro j
      rw [h3 j]
      by_cases hji : j = i
      · subst hji
        simp [hni, List.getElem?_set, hi]
      · have hne : ¬ i = j := fun h => hji h.symm
        simp [hji, List.getElem?_set, hne]

theorem wellFormed_iff (s : HybridSolver Config Stack α) :
    s.wellFormed = true ↔
      s.stacks_.length ≤ s.datas_.length ∧
      (∀ i ∈ s.explicit_.outDers, i < s.explicit_.derSize) ∧
      (∀ j ∈ s.explicit_.inDers, j < s.explicit_.derSize) ∧
      s.JeExpanded_.rows = s.explicit_.derSize ∧ s.JeExpanded_.cols = s.explicit_.derSize ∧
      s.Je_.rows = s.explicit_.outDers.length ∧ s.Je_.cols = s.explicit_.inDers.length ∧
      ∀ d ∈ s.datas_, d.Fits s.explicit_ := by
  simp [wellFormed, Data.Fits, and_assoc]

theorem computeJe_eq [Zero α] (s : HybridSolver Config Stack α) (q : Config)
    (h : s.wellFormed = true) :
    s.computeJe q =
      some ({ rows := s.explicit_.derSize, cols := s.explicit_.derSize,
              coeff := s.explicit_.jacobianAt q }, s.explicit_.reducedJacobian q) := by
  obtain ⟨_, hout, hin, h1, h2, h3, h4, _⟩ := (wellFormed_iff s).1 h
  have hallo : (s.explicit_.outDers.all fun i => decide (i < s.explicit_.derSize)) = true := by
    rw [List.all_eq_true]; intro i hi; simpa using hout i hi
  have halli : (s.explicit_.inDers.all fun i => decide (i < s.explicit_.derSize)) = true := by
    rw [List.all_eq_true]; intro i hi; simpa using hin i hi
  simp [computeJe, ExplicitSolver.jacobian, ExplicitSolver.viewJacobian, Mat.view, Mat.writeTo,
    h1, h2, h3, h4, hallo, halli, ExplicitSolver.reducedJacobian]

/-- What `updateJacobian` does on a solver whose buffers have the right sizes: it
returns; the explicit system, the stack and the recorded free columns are kept;
the two buffers hold the explicit Jacobian at `q` and `Je`; the buffers of stack
entry `i` are the former ones after the loop body, those beyond the stack are
kept; the sizes are right again. -/
theorem updateJacobian_spec [Semiring α] (s : HybridSolver Config Stack α) (q : Config)
    (h : s.wellFormed = true) :
    ∃ s1, s.updateJacobian q = some s1 ∧ s1.wellFormed = true ∧
      s1.explicit_ = s.explicit_ ∧ s1.stacks_ = s.stacks_ ∧ s1.reduction_ = s.reduction_ ∧
      s1.Je_ = s.explicit_.reducedJacobian q ∧
      s1.datas_.length = s.datas_.length ∧
      ∀ i : Nat, s1.datas_[i]? =
        if i < s.stacks_.length then
          (s.datas_[i]?).map (Data.accumulate s.explicit_.outDers (s.explicit_.reducedJacobian q))
        else s.datas_[i]? := by
  have hw := (wellFormed_iff s).1 h
  obtain ⟨hlen, hout, hin, h1, h2, h3, h4, hfit⟩ := hw
  obtain ⟨datas1, hd1, hd2, hd3⟩ := updateEntries_spec s.explicit_
    (s.explicit_.reducedJacobian q) hout rfl rfl (List.range s.stacks_.length) s.datas_
    (List.nodup_range _) (fun i hi => lt_of_lt_of_le (List.mem_range.1 hi) hlen) hfit
  refine ⟨{ s with
      JeExpanded_ := { rows := s.explicit_.derSize, cols := s.explicit_.derSize,
                       coeff := s.explicit_.jacobianAt q }
      Je_ := s.explicit_.reducedJacobian q
      datas_ := datas1 }, ?_, ?_, rfl, rfl, rfl, rfl, hd2, ?_⟩
  · simp only [updateJacobian, computeJe_eq s q h, hd1]
  · rw [wellFormed_iff]
    refine ⟨by simpa [hd2] using hlen, hout, hin, rfl, rfl, rfl, rfl, ?_⟩
    intro d hd
    obtain ⟨i, hi⟩ := List.mem_iff_getElem?.1 hd
    have hi3 := hd3 i
    rw [hi] at hi3
    by_cases hmem : i ∈ List.range s.stacks_.length
    · rw [if_pos hmem] at hi3
      obtain ⟨d0, hd0, hacc⟩ := Option.map_eq_some'.1 hi3.symm
      exact hacc ▸ accumulate_fits s.explicit_ _ d0 (hfit d0 (List.mem_iff_getElem?.2 ⟨i, hd0⟩))
    · rw [if_neg hmem] at hi3
      exact hfit d (List.mem_iff_getElem?.2 ⟨i, hi3.symm⟩)
  · intro i
    have := hd3 i
    simpa [List.mem_range] using this

end HybridSolver

/-- C5: on a solver whose buffers have the right sizes `updateJacobian (q)` returns,
`Je_` holds the rows `outDers` and the columns `inDers` of the explicit Jacobian at
`q`, and for every stack entry `i` the Jacobian is kept and the reduced Jacobian
is the former one plus `S_i · Je`, where `S_i` holds the columns `outDers` of the
Jacobian of the entry. -/
theorem updateJacobian_accumulates {Config Stack α : Type} [Semiring α]
    (s : HybridSolver Config Stack α) (q : Config) (h : s.wellFormed = true) :
    ∃ s1 : HybridSolver Config Stack α, s.updateJacobian q = some s1 ∧
      s1.Je_.rows = s.explicit_.outDers.length ∧ s1.Je_.cols = s.explicit_.inDers.length ∧
      (∀ k c : Nat, s1.Je_.coeff k c =
        s.explicit_.jacobianAt q (s.explicit_.outDers.getD k 0) (s.explicit_.inDers.getD c 0)) ∧
      ∀ i : Nat, i < s.stacks_.length →
        ∃ d d1 : Data α, s.datas_[i]? = some d ∧ s1.datas_[i]? = some d1 ∧
          d1.jacobian = d.jacobian ∧
          d1.reducedJ.rows = d.reducedJ.rows ∧ d1.reducedJ.cols = d.reducedJ.cols ∧
          ∀ r c : Nat, d1.reducedJ.coeff r c =
            d.reducedJ.coeff r c + projected s.explicit_ q d.jacobian r c := by
  obtain ⟨s1, h1, _, _, _, _, hJe, _, hd⟩ := HybridSolver.updateJacobian_spec s q h
  refine ⟨s1, h1, by rw [hJe]; rfl, by rw [hJe]; rfl, fun k c => by rw [hJe]; rfl, ?_⟩
  intro i hi
  have hlen : i < s.datas_.length :=
    lt_of_lt_of_le hi ((HybridSolver.wellFormed_iff s).1 h).1
  refine ⟨s.datas_[i],
    (s.datas_[i]).accumulate s.explicit_.outDers (s.explicit_.reducedJacobian q),
    List.getElem?_eq_getElem hlen, ?_, rfl, rfl, rfl, ?_⟩
  · rw [hd i, if_pos hi, List.getElem?_eq_getElem hlen]
    rfl
  · intro r c
    exact accumulate_coeff s.explicit_ q _ r c

theorem updateJacobian_accumulates_witness :
    (twoVariableSolver (1 : Int) 1 2 1).wellFormed = true ∧
    ∃ (s1 : HybridSolver Unit Unit Int) (d1 : Data Int),
      (twoVariableSolver (1 : Int) 1 2 1).updateJacobian () = some s1 ∧
      s1.datas_[0]? = some d1 ∧ d1.reducedJ.coeff 0 0 = 3 := by
  obtain ⟨s1, h1, _, _, _, hd⟩ :=
    updateJacobian_accumulates (twoVariableSolver (1 : Int) 1 2 1) () (by decide)
  obtain ⟨d, d1, hd0, hd1, _, _, _, hc⟩ := hd 0 (by decide)
  refine ⟨by decide, s1, d1, h1, hd1, ?_⟩
  have hd' : d = { jacobian := { rows := 1, cols := 2, coeff := fun _ j => if j = 0 then 1 else 1 },
                   reducedJ := { rows := 1, cols := 1, coeff := fun _ _ => 1 } } :=
    (Option.some.inj hd0).symm
  have hinDers : (twoVariableSolver (1 : Int) 1 2 1).explicit_.inDers = [0] := by decide
  rw [hc 0 0, hd']
  simp only [projected, hinDers]
  simp [twoVariableSolver]

/-- C6, as stated, fails: with `q2 = 2 * q1`, the constraint Jacobian `(1, 1)` and a
reduced Jacobian buffer holding 0, `explicitSolverHasChanged ()` followed by
`updateJacobian (q)` leaves the reduced Jacobian 2, not `1 + 2 * 1`. -/
theorem two_variable_zero_buffer :
    ∃ (s1 : HybridSolver Unit Unit Int) (d1 : Data Int),
      (twoVariableSolver (1 : Int) 1 2 0).explicitSolverHasChanged.updateJacobian () = some s1 ∧
      s1.datas_[0]? = some d1 ∧ d1.reducedJ.coeff 0 0 = 2 ∧
      d1.reducedJ.coeff 0 0 ≠ 1 + 2 * 1 :=
  ⟨_, _, rfl, rfl, by decide, by decide⟩

/-- C6, amended: in the system of two variables with `q2 = c * q1` explicit and the
constraint Jacobian `(a, b)`, `explicitSolverHasChanged ()` followed by
`updateJacobian (q)` adds `c * b` to what the reduced Jacobian buffer holds; when
the buffer holds `a`, the Jacobian of the constraint with respect to the free
variable `q1`, the reduced Jacobian is `a + c * b`, which is 3 for `q2 = 2 * q1`
and the Jacobian `(1, 1)`. -/
theorem two_variable_reduced_jacobian {α : Type} [CommSemiring α] (a b c r0 : α) :
    (∃ (s1 : HybridSolver Unit Unit α) (d1 : Data α),
      (twoVariableSolver a b c r0).explicitSolverHasChanged.updateJacobian () = some s1 ∧
      s1.datas_[0]? = some d1 ∧ d1.reducedJ.rows = 1 ∧ d1.reducedJ.cols = 1 ∧
      d1.reducedJ.coeff 0 0 = r0 + c * b) ∧
    (∃ (s1 : HybridSolver Unit Unit α) (d1 : Data α),
      (twoVariableSolver a b c a).explicitSolverHasChanged.updateJacobian () = some s1 ∧
      s1.datas_[0]? = some d1 ∧ d1.reducedJ.rows = 1 ∧ d1.reducedJ.cols = 1 ∧
      d1.reducedJ.coeff 0 0 = a + c * b) ∧
    (∃ (s1 : HybridSolver Unit Unit Int) (d1 : Data Int),
      (twoVariableSolver (1 : Int) 1 2 1).explicitSolverHasChanged.updateJacobian () = some s1 ∧
      s1.datas_[0]? = some d1 ∧ d1.reducedJ.coeff 0 0 = 3) := by
  refine ⟨⟨_, _, rfl, rfl, rfl, rfl, ?_⟩, ⟨_, _, rfl, rfl, rfl, rfl, ?_⟩,
    ⟨_, _, rfl, rfl, by decide⟩⟩
  · show r0 + (0 + b * c) = r0 + c * b
    rw [zero_add, mul_comm]
  · show a + (0 + b * c) = a + c * b
    rw [zero_add, mul_comm]

/-- C7, as stated, fails: in the system of two variables with the reduced Jacobian
buffer holding 1, one call of `updateJacobian (q)` leaves 3 and a second call in a
row leaves 5. -/
theorem updateJacobian_twice_differs :
    ∃ (s1 s2 : HybridSolver Unit Unit Int) (d1 d2 : Data Int),
      (twoVariableSolver (1 : Int) 1 2 1).updateJacobian () = some s1 ∧
      s1.updateJacobian () = some s2 ∧
      s1.datas_[0]? = some d1 ∧ s2.datas_[0]? = some d2 ∧
      d1.reducedJ.coeff 0 0 = 3 ∧ d2.reducedJ.coeff 0 0 = 5 :=
  ⟨_, _, _, _, rfl, rfl, rfl, rfl, by decide, by decide⟩

/-- C7, amended: `updateJacobian (q)` adds `S_i · Je` to what the reduced Jacobian
buffer of stack entry `i` holds, so the result depends on that content, and two
calls in a row add `S_i · Je` twice. -/
theorem updateJacobian_twice_accumulates {Config Stack α : Type} [Semiring α]
    (s : HybridSolver Config Stack α) (q : Config) (h : s.wellFormed = true) :
    ∃ s1 s2 : HybridSolver Config Stack α,
      s.updateJacobian q = some s1 ∧ s1.updateJacobian q = some s2 ∧
      ∀ i : Nat, i < s.stacks_.length →
        ∃ d d1 d2 : Data α,
          s.datas_[i]? = some d ∧ s1.datas_[i]? = some d1 ∧ s2.datas_[i]? = some d2 ∧
          ∀ r c : Nat,
            d1.reducedJ.coeff r c =
              d.reducedJ.coeff r c + projected s.explicit_ q d.jacobian r c ∧
            d2.reducedJ.coeff r c =
              d.reducedJ.coeff r c + projected s.explicit_ q d.jacobian r c +
                projected s.explicit_ q d.jacobian r c := by
  obtain ⟨s1, h1, hw1, he1, hs1, _, _, _, hd1⟩ := HybridSolver.updateJacobian_spec s q h
  obtain ⟨s2, h2, _, _, _, _, _, _, hd2⟩ := HybridSolver.updateJacobian_spec s1 q hw1
  refine ⟨s1, s2, h1, h2, ?_⟩
  intro i hi
  have hlen : i < s.datas_.length :=
    lt_of_lt_of_le hi ((HybridSolver.wellFormed_iff s).1 h).1
  have e1 : s1.datas_[i]? =
      some ((s.datas_[i]).accumulate s.explicit_.outDers (s.explicit_.reducedJacobian q)) := by
    rw [hd1 i, if_pos hi, List.getElem?_eq_getElem hlen]
    rfl
  have e2 : s2.datas_[i]? =
      some (((s.datas_[i]).accumulate s.explicit_.outDers
        (s.explicit_.reducedJacobian q)).accumulate s.explicit_.outDers
          (s.explicit_.reducedJacobian q)) := by
    rw [hd2 i, hs1, if_pos hi, e1, he1]
    rfl
  refine ⟨s.datas_[i], _, _, List.getElem?_eq_getElem hlen, e1, e2, ?_⟩
  intro r c
  refine ⟨accumulate_coeff s.explicit_ q _ r c, ?_⟩
  rw [accumulate_coeff s.explicit_ q _ r c, accumulate_coeff s.explicit_ q _ r c]
  rfl

theorem updateJacobian_twice_accumulates_witness :
    (twoVariableSolver (1 : Int) 1 2 1).wellFormed = true ∧
    ∃ (s1 s2 : HybridSolver Unit Unit Int),
      (twoVariableSolver (1 : Int) 1 2 1).updateJacobian () = some s1 ∧
      s1.updateJacobian () = some s2 := by
  obtain ⟨s1, s2, h1, h2, _⟩ :=
    updateJacobian_twice_accumulates (twoVariableSolver (1 : Int) 1 2 1) () (by decide)
  exact ⟨by decide, s1, s2, h1, h2⟩

namespace ExplicitSolver

/-- The input-velocity set is the complement of the output-velocity set among the
velocity columns. -/
theorem mem_inDers {Config α : Type} (e : ExplicitSolver Config α) (c : Nat) :
    c ∈ e.inDers ↔ c < e.derSize ∧ c ∉ e.outDers := by
  simp [inDers, List.mem_filter]

end ExplicitSolver

/-- C8: after `explicitSolverHasChanged ()` the free set handed to `reduction` is the
input-velocity set of the explicit function, which holds the velocity columns
outside the output-velocity set `outDers`: a velocity column is reducible exactly
when it belongs to `outDers` and free exactly when it does not, every velocity
column is one or the other and none is both. -/
theorem explicitSolverHasChanged_partition {Config Stack α : Type}
    (s : HybridSolver Config Stack α) :
    s.explicitSolverHasChanged.reduction_ = s.explicit_.inDers ∧
    (∀ c, c ∈ s.explicitSolverHasChanged.reduction_ ↔
      c < s.explicit_.derSize ∧ c ∉ s.explicit_.outDers) ∧
    s.explicitSolverHasChanged.reduction_.Nodup ∧
    ∀ c, c < s.explicit_.derSize →
      (s.explicitSolverHasChanged.isFree c = true ↔ c ∉ s.explicit_.outDers) ∧
      (s.explicitSolverHasChanged.isReducible c = true ↔ c ∈ s.explicit_.outDers) ∧
      (s.explicitSolverHasChanged.isFree c = true ∨
        s.explicitSolverHasChanged.isReducible c = true) ∧
      ¬ (s.explicitSolverHasChanged.isFree c = true ∧
        s.explicitSolverHasChanged.isReducible c = true) := by
  have hred : s.explicitSolverHasChanged.reduction_ = s.explicit_.inDers := rfl
  have hfree : ∀ c, s.explicitSolverHasChanged.isFree c = true ↔ c ∈ s.explicit_.inDers := by
    intro c
    simp [HybridSolver.isFree, hred]
  have hredu : ∀ c,
      s.explicitSolverHasChanged.isReducible c = true ↔ c ∉ s.explicit_.inDers := by
    intro c
    rw [← hfree c]
    simp [HybridSolver.isReducible]
  refine ⟨hred, fun c => by rw [hred]; exact ExplicitSolver.mem_inDers _ c, ?_, ?_⟩
  · rw [hred]
    exact (List.nodup_range _).filter _
  · intro c hc
    have hmem : c ∈ s.explicit_.inDers ↔ c ∉ s.explicit_.outDers := by
      rw [ExplicitSolver.mem_inDers]
      exact ⟨fun h => h.2, fun h => ⟨hc, h⟩⟩
    refine ⟨(hfree c).trans hmem, (hredu c).trans ?_, ?_, ?_⟩
    · rw [hmem]; exact not_not
    · by_cases hin : c ∈ s.explicit_.inDers
      · exact Or.inl ((hfree c).2 hin)
      · exact Or.inr ((hredu c).2 hin)
    · rintro ⟨h1, h2⟩
      exact (hredu c).1 h2 ((hfree c).1 h1)

theorem cyclicSolver_cyclic : cyclicSolver.explicit_.Cyclic := by
  refine ⟨{ inDers := [1], outDers := [0] }, by simp [cyclicSolver], 0, by simp, 1, by simp,
    Relation.ReflTransGen.single ?_⟩
  exact ⟨{ inDers := [0], outDers := [1] }, by simp [cyclicSolver], by simp, by simp⟩

/-- C9, as stated, fails: with column 0 computed from column 1 and column 1 from
column 0 the explicit partition has an elimination cycle, and
`explicitSolverHasChanged ()` installs the reduction `{2}` for it. -/
theorem explicitSolverHasChanged_installs_cyclic :
    cyclicSolver.explicit_.Cyclic ∧ cyclicSolver.reduction_ = [] ∧
    cyclicSolver.explicitSolverHasChanged.reduction_ = [2] ∧
    cyclicSolver.explicitSolverHasChanged.explicit_.functions.length = 2 :=
  ⟨cyclicSolver_cyclic, rfl, rfl, rfl⟩

/-- C9, amended: `explicitSolverHasChanged ()` makes no cycle check: for an explicit
partition with an elimination cycle too it installs the reduction given by
`inDers` and keeps the explicit system, the stack and the buffers. -/
theorem explicitSolverHasChanged_no_cycle_check {Config Stack α : Type}
    (s : HybridSolver Config Stack α) (_h : s.explicit_.Cyclic) :
    s.explicitSolverHasChanged.reduction_ = s.explicit_.inDers ∧
    s.explicitSolverHasChanged.explicit_ = s.explicit_ ∧
    s.explicitSolverHasChanged.stacks_ = s.stacks_ ∧
    s.explicitSolverHasChanged.datas_ = s.datas_ :=
  ⟨rfl, rfl, rfl, rfl⟩

theorem explicitSolverHasChanged_no_cycle_check_witness :
    cyclicSolver.explicit_.Cyclic ∧
    cyclicSolver.explicitSolverHasChanged.reduction_ = cyclicSolver.explicit_.inDers :=
  ⟨cyclicSolver_cyclic, (explicitSolverHasChanged_no_cycle_check cyclicSolver cyclicSolver_cyclic).1⟩

/-- C16: for a mask of length `n` with `k` true entries and caller-supplied buffers
of `n` entries and of `n` rows, `impl_compute` returns and leaves entries
`k..n-1` of the result as they were, and `impl_jacobian` returns and leaves rows
`k..n-1` of the Jacobian buffer as they were; the buffers keep their lengths. -/
theorem impl_compute_jacobian_frame {Config K α : Type} (F : SymbolicFunction Config K α)
    (result : List α) (jacobian : List (List α)) (q : Config) (c : Nat)
    (hmask : F.mask_.length = (F.unmaskedValue q).length)
    (hmaskJ : F.mask_.length = (F.unmaskedJacobian q).length)
    (hres : result.length = F.mask_.length)
    (hrows : jacobian.length = F.mask_.length)
    (hbuf : ∀ row ∈ jacobian, row.length = c)
    (hjac : ∀ row ∈ F.unmaskedJacobian q, row.length = c) :
    (∃ (F1 : SymbolicFunction Config K α) (result1 : List α),
      F.impl_compute result q = some (F1, result1) ∧ result1.length = result.length ∧
      ∀ j : Nat, F.mask_.count true ≤ j → result1[j]? = result[j]?) ∧
    (∃ (F1 : SymbolicFunction Config K α) (jacobian1 : List (List α)),
      F.impl_jacobian jacobian q = some (F1, jacobian1) ∧
      jacobian1.length = jacobian.length ∧
      ∀ j : Nat, F.mask_.count true ≤ j → jacobian1[j]? = jacobian[j]?) := by
  have hk : F.mask_.count true ≤ F.mask_.length := List.count_le_length _ _
  have hle : F.mask_.length ≤ (F.unmaskedValue q).length := le_of_eq hmask
  have hleJ : F.mask_.length ≤ (F.unmaskedJacobian q).length := le_of_eq hmaskJ
  refine ⟨⟨_, _, F.impl_compute_eq result q hle (by omega),
      copied_length _ _ _ hle (by omega), fun j hj => copied_tail _ _ _ hle j hj⟩,
    ⟨_, _, F.impl_jacobian_eq jacobian q c hleJ (by omega) hbuf hjac,
      copied_length _ _ _ hleJ (by omega), fun j hj => copied_tail _ _ _ hleJ j hj⟩⟩

theorem impl_compute_jacobian_frame_witness :
    exampleFunction.mask_.length = (exampleFunction.unmaskedValue 5).length ∧
    [(8 : Int), 8, 8].length = exampleFunction.mask_.length ∧
    ∃ (F1 : SymbolicFunction Nat Nat Int) (result1 : List Int),
      exampleFunction.impl_compute [8, 8, 8] 5 = some (F1, result1) ∧
      result1[2]? = some 8 := by
  have hbuf : ∀ row ∈ [[(0 : Int)], [0], [7]], row.length = 1 := by decide
  have hjac : ∀ row ∈ exampleFunction.unmaskedJacobian 5, row.length = 1 := by decide
  obtain ⟨⟨F1, result1, h, _, htail⟩, _⟩ :=
    impl_compute_jacobian_frame exampleFunction [8, 8, 8] [[0], [0], [7]] 5 1 rfl rfl rfl rfl
      hbuf hjac
  refine ⟨rfl, rfl, F1, result1, h, ?_⟩
  rw [htail 2 (by decide)]
  rfl

/-- C15: `create` without a mask succeeds and builds the mask of
`n = expr->value ().size ()` true entries; for a configuration at which the
expression has `n` rows, the function so created writes the whole unmasked value
into a buffer of `n` entries and the whole unmasked Jacobian, row for row, into a
buffer of `n` rows. -/
theorem createFull_identity_mask {Config K α : Type} (name : String)
    (robot : Device Config K) (expr : Expr K α) (q : Config) (result : List α)
    (jacobian : List (List α)) (c : Nat)
    (hval : (expr.valueOf (robot.forwardKinematics q)).length = expr.value.length)
    (hjacn : (expr.jacobianOf (robot.forwardKinematics q)).length = expr.value.length)
    (hres : result.length = expr.value.length)
    (hrows : jacobian.length = expr.value.length)
    (hbuf : ∀ row ∈ jacobian, row.length = c)
    (hjac : ∀ row ∈ expr.jacobianOf (robot.forwardKinematics q), row.length = c) :
    ∃ F : SymbolicFunction Config K α,
      SymbolicFunction.createFull name robot expr = some F ∧
      F.mask_ = List.replicate expr.value.length true ∧
      F.unmaskedValue q = expr.valueOf (robot.forwardKinematics q) ∧
      F.unmaskedJacobian q = expr.jacobianOf (robot.forwardKinematics q) ∧
      (∃ F1 : SymbolicFunction Config K α,
        F.impl_compute result q = some (F1, F.unmaskedValue q)) ∧
      (∃ F1 : SymbolicFunction Config K α,
        F.impl_jacobian jacobian q = some (F1, F.unmaskedJacobian q)) := by
  have hcount : (List.replicate expr.value.length true).count true = expr.value.length := by
    simp
  have hlen : (List.replicate expr.value.length true).length = expr.value.length := by simp
  refine ⟨SymbolicFunction.new name robot expr (List.replicate expr.value.length true),
    by simp [SymbolicFunction.createFull, SymbolicFunction.create], rfl, rfl, rfl, ?_, ?_⟩
  · refine ⟨(SymbolicFunction.new name robot expr
      (List.replicate expr.value.length true)).refreshValue q, ?_⟩
    rw [SymbolicFunction.impl_compute_eq _ result q
      (by simp [SymbolicFunction.new, SymbolicFunction.unmaskedValue, hval])
      (by simp [SymbolicFunction.new, hres])]
    congr 2
    exact copied_all_true _ _ _
      (by simp [SymbolicFunction.new, SymbolicFunction.unmaskedValue, hval])
      (by simp [SymbolicFunction.new]) (by simp [SymbolicFunction.new, hres])
  · refine ⟨(SymbolicFunction.new name robot expr
      (List.replicate expr.value.length true)).refreshJacobian q, ?_⟩
    rw [SymbolicFunction.impl_jacobian_eq
      (SymbolicFunction.new name robot expr (List.replicate expr.value.length true))
      jacobian q c
      (by simp [SymbolicFunction.new, SymbolicFunction.unmaskedJacobian, hjacn])
      (by simp [SymbolicFunction.new, hrows]) hbuf hjac]
    congr 2
    exact copied_all_true _ _ _
      (by simp [SymbolicFunction.new, SymbolicFunction.unmaskedJacobian, hjacn])
      (by simp [SymbolicFunction.new]) (by simp [SymbolicFunction.new, hrows])

theorem createFull_identity_mask_witness :
    (exampleExpr.valueOf (exampleDevice.forwardKinematics 5)).length = exampleExpr.value.length ∧
    [(0 : Int), 0, 0].length = exampleExpr.value.length ∧
    ∃ F : SymbolicFunction Nat Nat Int,
      SymbolicFunction.createFull "example" exampleDevice exampleExpr = some F ∧
      F.mask_ = [true, true, true] ∧
      ∃ F1 : SymbolicFunction Nat Nat Int, F.impl_compute [0, 0, 0] 5 = some (F1, [5, 10, 15]) := by
  have hbuf : ∀ row ∈ [[(0 : Int)], [0], [0]], row.length = 1 := by decide
  have hjac : ∀ row ∈ exampleExpr.jacobianOf (exampleDevice.forwardKinematics 5),
      row.length = 1 := by decide
  obtain ⟨F, hF, hm, hv, _, hc, _⟩ :=
    createFull_identity_mask "example" exampleDevice exampleExpr 5 [0, 0, 0] [[0], [0], [0]] 1
      rfl rfl rfl rfl hbuf hjac
  refine ⟨rfl, rfl, F, hF, hm, ?_⟩
  rw [hv] at hc
  exact hc

/-- C13: within one `updateJacobian (q)` on a solver whose buffers have the right
sizes, `Je_` is the reduced explicit Jacobian of `q` and every stack entry is
updated with it; the new buffers of entry `i` are computed from the former
buffers of entry `i` and `Je_` alone, its Jacobian is kept and so are the stack,
the explicit system and the buffers beyond the stack; running the loop body over
any permutation of the stack indices gives the same buffers. -/
theorem updateJacobian_order_independent {Config Stack α : Type} [Semiring α]
    (s : HybridSolver Config Stack α) (q : Config) (order : List Nat)
    (h : s.wellFormed = true) (hperm : order.Perm (List.range s.stacks_.length)) :
    ∃ s1 : HybridSolver Config Stack α, s.updateJacobian q = some s1 ∧
      s1.Je_ = s.explicit_.reducedJacobian q ∧
      HybridSolver.updateEntries s.explicit_.outDers (s.explicit_.reducedJacobian q) order
        s.datas_ = some s1.datas_ ∧
      s1.stacks_ = s.stacks_ ∧ s1.explicit_ = s.explicit_ ∧
      (∀ i : Nat, i < s.stacks_.length →
        ∃ d d1 : Data α, s.datas_[i]? = some d ∧ s1.datas_[i]? = some d1 ∧
          d1 = d.accumulate s.explicit_.outDers (s.explicit_.reducedJacobian q) ∧
          d1.jacobian = d.jacobian) ∧
      (∀ i : Nat, s.stacks_.length ≤ i → s1.datas_[i]? = s.datas_[i]?) := by
  obtain ⟨s1, h1, _, he, hs, _, hJe, hlen1, hd⟩ := HybridSolver.updateJacobian_spec s q h
  obtain ⟨hlen, hout, _, _, _, _, _, hfit⟩ := (HybridSolver.wellFormed_iff s).1 h
  have hmem : ∀ i, i ∈ order ↔ i < s.stacks_.length := fun i =>
    (hperm.mem_iff).trans List.mem_range
  obtain ⟨datas2, h2, hlen2, hd2⟩ := HybridSolver.updateEntries_spec s.explicit_
    (s.explicit_.reducedJacobian q) hout rfl rfl order s.datas_
    (hperm.nodup_iff.2 (List.nodup_range _))
    (fun i hi => lt_of_lt_of_le ((hmem i).1 hi) hlen) hfit
  have heq : datas2 = s1.datas_ := by
    apply List.ext_getElem?
    intro i
    rw [hd2 i, hd i]
    by_cases hi : i < s.stacks_.length
    · rw [if_pos ((hmem i).2 hi), if_pos hi]
    · rw [if_neg (fun hc => hi ((hmem i).1 hc)), if_neg hi]
  refine ⟨s1, h1, hJe, heq ▸ h2, hs, he, ?_, ?_⟩
  · intro i hi
    have hil : i < s.datas_.length := lt_of_lt_of_le hi hlen
    refine ⟨s.datas_[i], _, List.getElem?_eq_getElem hil, ?_, rfl, rfl⟩
    rw [hd i, if_pos hi, List.getElem?_eq_getElem hil]
    rfl
  · intro i hi
    rw [hd i, if_neg (by omega)]

theorem updateJacobian_order_independent_witness :
    twoEntrySolver.wellFormed = true ∧
    [1, 0].Perm (List.range twoEntrySolver.stacks_.length) ∧
    ∃ s1 : HybridSolver Unit Unit Int,
      twoEntrySolver.updateJacobian () = some s1 ∧
      HybridSolver.updateEntries twoEntrySolver.explicit_.outDers
        (twoEntrySolver.explicit_.reducedJacobian ()) [1, 0] twoEntrySolver.datas_ =
          some s1.datas_ ∧
      s1.datas_.map (fun d => d.reducedJ.coeff 0 0) = [3, 24] := by
  have hperm : [1, 0].Perm (List.range twoEntrySolver.stacks_.length) := by decide
  obtain ⟨s1, h1, _, hord, _, _, _, _⟩ :=
    updateJacobian_order_independent twoEntrySolver () [1, 0] (by decide) hperm
  refine ⟨by decide, hperm, s1, h1, hord, ?_⟩
  have h2 : twoEntrySolver.updateJacobian () = some
      { twoEntrySolver with
        JeExpanded_ := { rows := 2, cols := 2, coeff := twoEntrySolver.explicit_.jacobianAt () }
        Je_ := twoEntrySolver.explicit_.reducedJacobian ()
        datas_ := twoEntrySolver.datas_.map
          (Data.accumulate twoEntrySolver.explicit_.outDers
            (twoEntrySolver.explicit_.reducedJacobian ())) } := rfl
  rw [h2] at h1
  rw [← Option.some.inj h1]
  decide

/-! ## Explicit functions -/

namespace explicit_

theorem rview_eq {α : Type} (segments : List (Nat × Nat)) (v : List α)
    (h : ∀ i ∈ segmentIndices segments, i < v.length) :
    rview segments v = some (pick v (segmentIndices segments)) := by
  have hall : ((segmentIndices segments).all fun i => decide (i < v.length)) = true := by
    rw [List.all_eq_true]
    intro i hi
    simpa using h i hi
  simp [rview, hall]

theorem scatterCols_eq {α : Type} (idx : List Nat) (src dst : Mat α)
    (hrows : src.rows = dst.rows) (hcols : src.cols = idx.length)
    (hidx : ∀ j ∈ idx, j < dst.cols) :
    scatterCols idx src dst =
      some
        { rows := dst.rows
          cols := dst.cols
          coeff := fun r c => if c ∈ idx then src.coeff r (idx.indexOf c) else dst.coeff r c } := by
  have hall : (idx.all fun j => decide (j < dst.cols)) = true := by
    rw [List.all_eq_true]
    intro j hj
    simpa using hidx j hj
  simp [scatterCols, hrows, hcols, hall]

end explicit_

namespace explicit_

theorem Function.outerJacobian_sizes {α : Type} [Zero α] [One α] (F : Function α)
    (jacobian : Mat α) (qOut : LiegroupElement α) (h : F.SizesAgree jacobian) :
    (Function.outerJacobian (segmentIndices F.outputDerivIntervals_).length F.gData_ qOut).2.rows =
        jacobian.rows ∧
    (Function.outerJacobian (segmentIndices F.outputDerivIntervals_).length F.gData_ qOut).2.cols =
        (segmentIndices F.outputDerivIntervals_).length := by
  have h1 := h.1
  cases hg : F.gData_ with
  | identity d =>
    rw [hg] at h1
    exact ⟨h1.symm, rfl⟩
  | generic d =>
    rw [hg] at h1
    exact ⟨h1.1, h1.2⟩

/-- What `impl_jacobian` of an explicit function returns when the sizes agree: the
buffer keeps its size, and every column outside the input-velocity and the
output-velocity sets is zero. -/
theorem Function.impl_jacobian_spec {α : Type} [Zero α] [One α] [Neg α] (F : Function α)
    (jacobian : Mat α) (q : List α)
    (hin : ∀ i ∈ segmentIndices F.inputConfIntervals_, i < q.length)
    (hout : ∀ i ∈ segmentIndices F.outputConfIntervals_, i < q.length)
    (hsz : F.SizesAgree jacobian) :
    ∃ (F1 : Function α) (J : Mat α), F.impl_jacobian jacobian q = some (F1, J) ∧
      J.rows = jacobian.rows ∧ J.cols = jacobian.cols ∧
      ∀ r c : Nat, c ∉ segmentIndices F.inputDerivIntervals_ →
        c ∉ segmentIndices F.outputDerivIntervals_ → J.coeff r c = 0 := by
  obtain ⟨hg1, hg2⟩ := Function.outerJacobian_sizes F jacobian
    { F.qOut_ with vector := pick q (segmentIndices F.outputConfIntervals_) } hsz
  obtain ⟨_, hf1, hf2, ho, hi⟩ := hsz
  have h1 := scatterCols_eq (segmentIndices F.outputDerivIntervals_)
    (Function.outerJacobian (segmentIndices F.outputDerivIntervals_).length F.gData_
      { F.qOut_ with vector := pick q (segmentIndices F.outputConfIntervals_) }).2
    { rows := jacobian.rows, cols := jacobian.cols, coeff := fun _ _ => (0 : α) } hg1 hg2 ho
  simp only [Function.impl_jacobian, rview_eq _ q hin, rview_eq _ q hout, h1]
  rw [scatterCols_eq _ _ _ (by simpa [DifferentiableFunction.jacobian] using hf1)
    (by simpa [DifferentiableFunction.jacobian] using hf2) (by simpa using hi)]
  refine ⟨_, _, rfl, rfl, rfl, ?_⟩
  intro r c hci hco
  simp [hci, hco]

end explicit_

/-- C12: for a full configuration `q` and whatever the output buffer holds before the
call, `impl_jacobian` returns a Jacobian of the size of the buffer in which every
column whose velocity index lies outside both the input-velocity and the
output-velocity index sets is exactly zero. -/
theorem explicit_jacobian_outside_columns_zero {α : Type} [Zero α] [One α] [Neg α]
    (F : explicit_.Function α) (jacobian : Mat α) (q : List α)
    (hin : ∀ i ∈ explicit_.segmentIndices F.inputConfIntervals_, i < q.length)
    (hout : ∀ i ∈ explicit_.segmentIndices F.outputConfIntervals_, i < q.length)
    (hsz : F.SizesAgree jacobian) :
    ∃ (F1 : explicit_.Function α) (J : Mat α), F.impl_jacobian jacobian q = some (F1, J) ∧
      J.rows = jacobian.rows ∧ J.cols = jacobian.cols ∧
      ∀ r c : Nat, c ∉ explicit_.segmentIndices F.inputDerivIntervals_ →
        c ∉ explicit_.segmentIndices F.outputDerivIntervals_ → J.coeff r c = 0 :=
  explicit_.Function.impl_jacobian_spec F jacobian q hin hout hsz

theorem explicit_jacobian_outside_columns_zero_witness :
    (∀ i ∈ explicit_.segmentIndices exampleExplicit.inputConfIntervals_,
      i < [(3 : Int), 6, 9].length) ∧
    (∀ i ∈ explicit_.segmentIndices exampleExplicit.outputConfIntervals_,
      i < [(3 : Int), 6, 9].length) ∧
    exampleExplicit.SizesAgree { rows := 1, cols := 3, coeff := fun _ _ => 7 } ∧
    ∃ (F1 : explicit_.Function Int) (J : Mat Int),
      exampleExplicit.impl_jacobian { rows := 1, cols := 3, coeff := fun _ _ => 7 } [3, 6, 9] =
        some (F1, J) ∧ J.coeff 0 2 = 0 := by
  have hin : ∀ i ∈ explicit_.segmentIndices exampleExplicit.inputConfIntervals_,
      i < [(3 : Int), 6, 9].length := by decide
  have hout : ∀ i ∈ explicit_.segmentIndices exampleExplicit.outputConfIntervals_,
      i < [(3 : Int), 6, 9].length := by decide
  have hsz : exampleExplicit.SizesAgree { rows := 1, cols := 3, coeff := fun _ _ => 7 } :=
    ⟨rfl, rfl, rfl, by decide, by decide⟩
  obtain ⟨F1, J, h, _, _, hzero⟩ :=
    explicit_jacobian_outside_columns_zero exampleExplicit
      { rows := 1, cols := 3, coeff := fun _ _ => 7 } [3, 6, 9] hin hout hsz
  exact ⟨hin, hout, hsz, F1, J, h, hzero 0 2 (by decide) (by decide)⟩

/-- C14: `IdentityData::value (q_out)` returns `q_out` and its `computeValue` changes
nothing; `GenericGData` built with the identity of the space of `q_out` returns
`q_out` from `value (q_out)` after `computeValue (q_out)`; and an explicit function
whose outer data is `IdentityData` writes the same value and, when the space of
`q_out` has one velocity coordinate per output velocity index, the same Jacobian
as with `GenericGData` built with the identity. -/
theorem identity_outer_map_agrees {α : Type} [Zero α] [One α] [Neg α]
    (F : explicit_.Function α) (dI : explicit_.IdentityData α)
    (qOut result : LiegroupElement α) (jacobian : Mat α) (q : List α)
    (hnv : F.qOut_.space.nv = (explicit_.segmentIndices F.outputDerivIntervals_).length) :
    dI.value qOut = qOut ∧ dI.computeValue qOut = dI ∧
    ((explicit_.GenericGData.new (DifferentiableFunction.identity qOut.space)).computeValue
      qOut).value qOut = qOut ∧
    (explicit_.Function.impl_compute { F with gData_ := explicit_.GData.identity dI }
        result q).map Prod.snd =
      (explicit_.Function.impl_compute
        { F with
          gData_ := explicit_.GData.generic
            (explicit_.GenericGData.new (DifferentiableFunction.identity F.qOut_.space)) }
        result q).map Prod.snd ∧
    (explicit_.Function.impl_jacobian { F with gData_ := explicit_.GData.identity dI }
        jacobian q).map Prod.snd =
      (explicit_.Function.impl_jacobian
        { F with
          gData_ := explicit_.GData.generic
            (explicit_.GenericGData.new (DifferentiableFunction.identity F.qOut_.space)) }
        jacobian q).map Prod.snd := by
  refine ⟨rfl, rfl, rfl, ?_, ?_⟩
  · simp only [explicit_.Function.impl_compute]
    cases explicit_.rview F.inputConfIntervals_ q with
    | none => rfl
    | some qIn =>
      cases explicit_.rview F.outputConfIntervals_ q with
      | none => rfl
      | some qOutV => rfl
  · simp only [explicit_.Function.impl_jacobian]
    cases explicit_.rview F.inputConfIntervals_ q with
    | none => rfl
    | some qIn =>
      cases explicit_.rview F.outputConfIntervals_ q with
      | none => rfl
      | some qOutV =>
        have hJ : (explicit_.Function.outerJacobian
              (explicit_.segmentIndices F.outputDerivIntervals_).length
              (explicit_.GData.generic
                (explicit_.GenericGData.new (DifferentiableFunction.identity F.qOut_.space)))
              { F.qOut_ with vector := qOutV }).2 =
            (explicit_.Function.outerJacobian
              (explicit_.segmentIndices F.outputDerivIntervals_).length
              (explicit_.GData.identity dI) { F.qOut_ with vector := qOutV }).2 := by
          simp [explicit_.Function.outerJacobian, explicit_.GenericGData.jacobian,
            explicit_.GenericGData.new, DifferentiableFunction.jacobian,
            DifferentiableFunction.identity, hnv]
        simp only [hJ]
        cases explicit_.scatterCols (explicit_.segmentIndices F.outputDerivIntervals_)
            (explicit_.Function.outerJacobian
              (explicit_.segmentIndices F.outputDerivIntervals_).length
              (explicit_.GData.identity dI) { F.qOut_ with vector := qOutV }).2
            { jacobian with coeff := fun _ _ => 0 } with
        | none => rfl
        | some J1 =>
          simp only []
          cases explicit_.scatterCols (explicit_.segmentIndices F.inputDerivIntervals_)
              { rows := (F.inputToOutput_.jacobian F.Jf_ qIn).rows
                cols := (F.inputToOutput_.jacobian F.Jf_ qIn).cols
                coeff := fun r c => -(F.inputToOutput_.jacobian F.Jf_ qIn).coeff r c } J1 with
          | none => rfl
          | some J2 => rfl

theorem identity_outer_map_agrees_witness :
    exampleExplicit.qOut_.space.nv =
      (explicit_.segmentIndices exampleExplicit.outputDerivIntervals_).length ∧
    (explicit_.Function.impl_compute
        { exampleExplicit with
          gData_ := explicit_.GData.generic
            (explicit_.GenericGData.new
              (DifferentiableFunction.identity exampleExplicit.qOut_.space)) }
        { vector := [7], space := flatSpace 1 } [3, 10, 9]).map (fun p => p.2.vector) =
      some [4] := by
  have h := (identity_outer_map_agrees exampleExplicit
    (explicit_.IdentityData.new (DifferentiableFunction.identity (flatSpace 1)))
    { vector := [7], space := flatSpace 1 } { vector := [7], space := flatSpace 1 }
    { rows := 1, cols := 3, coeff := fun _ _ => 0 } [3, 10, 9] rfl).2.2.2.1
  refine ⟨rfl, ?_⟩
  have h2 := congrArg (Option.map LiegroupElement.vector) h
  simp only [Option.map_map] at h2
  rw [show (fun p : explicit_.Function Int × LiegroupElement Int => p.2.vector) =
    LiegroupElement.vector ∘ Prod.snd from rfl, ← h2]
  decide

/-- C20, as stated, fails: with the constant outer map `g = 0`, after
`computeValue (x)` for `x = 1` the call `value (y)` for `y = 2` returns an element
of coordinates `g (y)`, the one `computeValue (y)` would cache, although the last
`computeValue` was made at `x`, not at `y`. -/
theorem generic_value_constant_outer_map :
    (((explicit_.GenericGData.new constantG).computeValue
        { vector := [1], space := flatSpace 1 }).value
        { vector := [2], space := flatSpace 1 }).vector = constantG.valueAt [2] ∧
    ((explicit_.GenericGData.new constantG).computeValue
        { vector := [1], space := flatSpace 1 }).value { vector := [2], space := flatSpace 1 } =
      ((explicit_.GenericGData.new constantG).computeValue
        { vector := [2], space := flatSpace 1 }).value { vector := [2], space := flatSpace 1 } ∧
    ([1] : List Int) ≠ [2] :=
  ⟨rfl, rfl, by decide⟩

/-- C20, amended: `GenericGData::value` ignores its argument: for every pair of
elements `x` and `y`, after `computeValue (x)` the call `value (y)` returns the
element cached by that `computeValue`, of coordinates `g (x)`; so `value (y)` has
the coordinates `g (y)` exactly when `g (x) = g (y)`, as it does when
`computeValue (y)` was the last `computeValue` call. -/
theorem generic_value_returns_cache {α : Type} (d : explicit_.GenericGData α)
    (x y : LiegroupElement α) :
    (d.computeValue x).value y = d.g_.value d.g_qOut_ x.vector ∧
    ((d.computeValue x).value y).vector = d.g_.valueAt x.vector ∧
    ((d.computeValue x).value y).space = d.g_qOut_.space ∧
    (((d.computeValue x).value y).vector = d.g_.valueAt y.vector ↔
      d.g_.valueAt x.vector = d.g_.valueAt y.vector) ∧
    ((d.computeValue y).value y).vector = d.g_.valueAt y.vector ∧
    (((d.computeValue x).computeValue y).value y).vector = d.g_.valueAt y.vector :=
  ⟨rfl, rfl, rfl, Iff.rfl, rfl, rfl⟩

/-! ## ConfigurationConstraint -/

theorem zipWith_sum_eq_sum_range {α : Type} [Semiring α] (f : α → α → α) (a b : List α)
    (h : a.length = b.length) :
    (List.zipWith f a b).sum = ∑ i in Finset.range a.length, f (a.getD i 0) (b.getD i 0) := by
  induction a generalizing b with
  | nil => simp
  | cons x a ih =>
    cases b with
    | nil => simp at h
    | cons y b =>
      have hl : a.length = b.length := by simpa using h
      rw [List.zipWith_cons_cons, List.sum_cons, ih b hl, List.length_cons,
        Finset.sum_range_succ', add_comm]
      simp

theorem getD_nonneg {α : Type} [LinearOrderedField α] (w : List α) (h : ∀ x ∈ w, 0 ≤ x)
    (i : Nat) : 0 ≤ w.getD i 0 := by
  by_cases hi : i < w.length
  · rw [List.getD_eq_getElem _ _ hi]
    exact h _ (List.getElem_mem _)
  · rw [List.getD_eq_default _ _ (by omega)]

theorem getD_eq_zero {α : Type} [Zero α] (d : List α) (h : ∀ x ∈ d, x = 0) (i : Nat) :
    d.getD i 0 = 0 := by
  by_cases hi : i < d.length
  · rw [List.getD_eq_getElem _ _ hi]
    exact h _ (List.getElem_mem _)
  · rw [List.getD_eq_default _ _ (by omega)]

/-- C17: for weights as many as the coordinates of `d = goal ⊖ q` and a result of
one coordinate, `impl_compute` returns the single value `1/2 * Σ_i w_i * d_i^2`;
with weights that are not negative the value is not negative, and it is 0 when
every coordinate of `d` is 0. -/
theorem configuration_constraint_value {α : Type} [LinearOrderedField α]
    (C : ConfigurationConstraint α) (result : LiegroupElement α) (q : List α)
    (hw : C.weights_.length = (C.goal_.space.difference q C.goal_.vector).length)
    (hres : result.vector.length = 1) :
    ∃ (C1 : ConfigurationConstraint α) (r : LiegroupElement α),
      C.impl_compute result q = some (C1, r) ∧
      r.vector =
        [halfWeightedSquares C.weights_ (C.goal_.space.difference q C.goal_.vector)] ∧
      r.space = result.space ∧
      ((∀ w ∈ C.weights_, 0 ≤ w) →
        0 ≤ halfWeightedSquares C.weights_ (C.goal_.space.difference q C.goal_.vector)) ∧
      ((∀ x ∈ C.goal_.space.difference q C.goal_.vector, x = 0) →
        halfWeightedSquares C.weights_ (C.goal_.space.difference q C.goal_.vector) = 0) := by
  have hlen : C.weights_.length =
      ((C.goal_.space.difference q C.goal_.vector).map fun x => x * x).length := by
    simpa using hw
  have hsum : (List.zipWith (fun x y => x * y) C.weights_
        ((C.goal_.space.difference q C.goal_.vector).map fun x => x * x)).sum =
      ∑ i in Finset.range C.weights_.length,
        C.weights_.getD i 0 * ((C.goal_.space.difference q C.goal_.vector).getD i 0) ^ 2 := by
    rw [zipWith_sum_eq_sum_range _ _ _ hlen]
    apply Finset.sum_congr rfl
    intro i hi
    have hi' : i < (C.goal_.space.difference q C.goal_.vector).length := by
      rw [← hw]; exact Finset.mem_range.1 hi
    have h1 : ((C.goal_.space.difference q C.goal_.vector).map fun x => x * x).getD i 0 =
        ((C.goal_.space.difference q C.goal_.vector).getD i 0) ^ 2 := by
      rw [List.getD_eq_getElem _ _ (by simpa using hi'), List.getD_eq_getElem _ _ hi',
        List.getElem_map, pow_two]
    rw [h1]
  obtain ⟨v0, hv0⟩ : ∃ v0, result.vector = [v0] := by
    cases hr : result.vector with
    | nil => rw [hr] at hres; simp at hres
    | cons v0 rest =>
      cases rest with
      | nil => exact ⟨v0, rfl⟩
      | cons _ _ => rw [hr] at hres; simp at hres
  refine ⟨{ C with diff_ := (C.goal_.space.difference q C.goal_.vector).map fun x => x * x },
    { result with
      vector := [halfWeightedSquares C.weights_ (C.goal_.space.difference q C.goal_.vector)] },
    ?_, rfl, rfl, ?_, ?_⟩
  · simp only [ConfigurationConstraint.impl_compute, LiegroupElement.sub, dot, hlen, if_true,
      hsum, hv0, halfWeightedSquares]
    simp
  · intro hnn
    unfold halfWeightedSquares
    apply mul_nonneg (by norm_num)
    apply Finset.sum_nonneg
    intro i _
    exact mul_nonneg (getD_nonneg _ hnn i) (sq_nonneg _)
  · intro hz
    unfold halfWeightedSquares
    rw [Finset.sum_eq_zero, mul_zero]
    intro i _
    rw [getD_eq_zero _ hz i]
    simp

theorem configuration_constraint_value_witness :
    exampleConstraint.weights_.length =
      (exampleConstraint.goal_.space.difference [0, 0, 0] exampleConstraint.goal_.vector).length ∧
    ∃ (C1 : ConfigurationConstraint Rat) (r : LiegroupElement Rat),
      exampleConstraint.impl_compute { vector := [7], space := flatSpace 1 } [0, 0, 0] =
        some (C1, r) ∧
      r.vector = [5] := by
  have hw : exampleConstraint.weights_.length =
      (exampleConstraint.goal_.space.difference [0, 0, 0]
        exampleConstraint.goal_.vector).length := by
    simp [exampleConstraint, flatSpace]
  obtain ⟨C1, r, h, hv, _⟩ :=
    configuration_constraint_value exampleConstraint { vector := [7], space := flatSpace 1 }
      [0, 0, 0] hw rfl
  refine ⟨hw, C1, r, h, ?_⟩
  rw [hv]
  simp [halfWeightedSquares, exampleConstraint, flatSpace, Finset.sum_range_succ]
  norm_num

/-- In the Heisenberg group the difference undoes the move along a tangent
vector. -/
theorem heisenberg_difference_integrate {α : Type} [CommRing α] (a b c v1 v2 v3 : α) :
    (heisenbergSpace : LiegroupSpace α).difference [a, b, c]
      (heisenbergIntegrate [a, b, c] [v1, v2, v3]) = [v1, v2, v3] := by
  simp only [heisenbergSpace, heisenbergIntegrate, List.getD_cons_zero, List.getD_cons_succ,
    List.cons.injEq, and_true]
  refine ⟨by ring, by ring, by ring⟩

/-- In the Heisenberg group `dDifference_dq0` is the derivative of the difference
with respect to its first argument: moving `q0` along `t v` adds to each coordinate
of the difference `t` times the row of `dDifference_dq0 q0 q1` applied to `v`, with
no term of higher order. -/
theorem heisenberg_dDifference_is_derivative {α : Type} [CommRing α]
    (a0 b0 c0 a1 b1 c1 v1 v2 v3 t : α) :
    (heisenbergSpace : LiegroupSpace α).difference
        (heisenbergIntegrate [a0, b0, c0] [t * v1, t * v2, t * v3]) [a1, b1, c1] =
      (List.range 3).map fun r =>
        ((heisenbergSpace : LiegroupSpace α).difference [a0, b0, c0] [a1, b1, c1]).getD r 0 +
          t * (((heisenbergSpace : LiegroupSpace α).dDifference_dq0 [a0, b0, c0]
                  [a1, b1, c1]).coeff r 0 * v1 +
               ((heisenbergSpace : LiegroupSpace α).dDifference_dq0 [a0, b0, c0]
                  [a1, b1, c1]).coeff r 1 * v2 +
               ((heisenbergSpace : LiegroupSpace α).dDifference_dq0 [a0, b0, c0]
                  [a1, b1, c1]).coeff r 2 * v3) := by
  simp only [heisenbergSpace, heisenbergIntegrate, List.getD_cons_zero, List.getD_cons_succ,
    List.range_succ, List.range_zero, List.nil_append, List.cons_append, List.map_cons,
    List.map_nil, List.cons.injEq, and_true]
  refine ⟨by ring, by ring, by ring⟩

/-- C18: over the Heisenberg group, with the goal `(1, 1, 3)`, `q = 0` and the weights
`(0, 0, 1)` built from the mask `(false, false, true)`, `d = goal ⊖ q = (1, 1, 2)`
and `impl_jacobian` writes the row `(0, 0, -2)`, the weights times `d^T * J0`, while
`(w ⊙ d)^T * J0` is `(-2, 2, -2)`; the value `impl_compute` returns at `q` moved
along `t v` is `2 + t * (-2 v1 + 2 v2 - 2 v3) + t^2 * (-v1 + v2 - v3)^2 / 2`, so its
gradient at `q` is `(-2, 2, -2)` and not the row written.  Over the flat space,
where `J0 = -I`, the row written for `goal = (1, 2, 3)`, `q = 0` and the weights
`(1, 0, 1)` is `(-1, 0, -3)`, the entries `w_i * (q_i - goal_i)`. -/
theorem impl_jacobian_weights_after_difference :
    (∃ (C C1 : ConfigurationConstraint Int) (J : Mat Int),
      ConfigurationConstraint.create "example" (exampleRobot heisenbergSpace) [1, 1, 3]
        [false, false, true] = some C ∧
      C.weights_ = [0, 0, 1] ∧
      C.goal_.sub { vector := [0, 0, 0], space := heisenbergSpace } = [1, 1, 2] ∧
      C.impl_jacobian { rows := 1, cols := 3, coeff := fun _ _ => 9 } [0, 0, 0] = some (C1, J) ∧
      (List.range 3).map (J.coeff 0) = [0, 0, -2] ∧
      weightedGradientRow C.weights_ [1, 1, 2]
        ((heisenbergSpace : LiegroupSpace Int).dDifference_dq0 [0, 0, 0] [1, 1, 3]) =
          some [-2, 2, -2]) ∧
    (∃ C : ConfigurationConstraint Rat,
      ConfigurationConstraint.create "example" (exampleRobot heisenbergSpace) [1, 1, 3]
        [false, false, true] = some C ∧
      ∀ v1 v2 v3 t : Rat, ∃ (C1 : ConfigurationConstraint Rat) (r : LiegroupElement Rat),
        C.impl_compute { vector := [0], space := flatSpace 1 }
          (heisenbergIntegrate [0, 0, 0] [t * v1, t * v2, t * v3]) = some (C1, r) ∧
        r.vector =
          [2 + t * (-2 * v1 + 2 * v2 - 2 * v3) + t ^ 2 * (-v1 + v2 - v3) ^ 2 / 2]) ∧
    (∃ (C C1 : ConfigurationConstraint Int) (J : Mat Int),
      ConfigurationConstraint.create "example" (exampleRobot (flatSpace 3)) [1, 2, 3]
        [true, false] = some C ∧
      C.weights_ = [1, 0, 1] ∧
      C.impl_jacobian { rows := 1, cols := 3, coeff := fun _ _ => 9 } [0, 0, 0] = some (C1, J) ∧
      (List.range 3).map (J.coeff 0) = [-1, 0, -3] ∧
      weightedGradientRow C.weights_ [1, 2, 3]
        ((flatSpace 3 : LiegroupSpace Int).dDifference_dq0 [0, 0, 0] [1, 2, 3]) =
          some [-1, 0, -3]) := by
  refine ⟨⟨_, _, _, rfl, rfl, by decide, rfl, by decide, by decide⟩, ⟨_, rfl, ?_⟩,
    ⟨_, _, _, rfl, rfl, rfl, by decide, by decide⟩⟩
  intro v1 v2 v3 t
  refine ⟨_, _, rfl, ?_⟩
  simp only [LiegroupElement.sub, heisenbergSpace, heisenbergIntegrate, exampleRobot,
    List.getD_cons_zero, List.getD_cons_succ, List.map_cons, List.map_nil,
    List.zipWith_cons_cons, List.zipWith_nil_right, List.sum_cons, List.sum_nil, List.set_cons_zero,
    List.cons.injEq, and_true]
  have hw : ((List.replicate 3 (1 : Rat)).set 0 0).set 1 0 = [0, 0, 1] := rfl
  rw [hw]
  simp only [List.zipWith_cons_cons, List.zipWith_nil_right, List.sum_cons, List.sum_nil]
  ring

namespace ConfigurationConstraint

theorem maskLoop_spec {α : Type} [Zero α] (ms : List Bool) :
    ∀ (i : Nat) (ws : List α), i + ms.length ≤ ws.length →
      ∃ ws1, maskLoop ms i ws = some ws1 ∧ ws1.length = ws.length ∧
        ∀ j : Nat, ws1[j]? =
          if i ≤ j ∧ ms[j - i]? = some false then some 0 else ws[j]? := by
  induction ms with
  | nil =>
    intro i ws _
    exact ⟨ws, rfl, rfl, fun j => by simp⟩
  | cons m ms ih =>
    intro i ws h
    have hlen : i + 1 + ms.length ≤ ws.length := by simp at h; omega
    have hstep : ∀ j, i + 1 ≤ j → (m :: ms)[j - i]? = ms[j - (i + 1)]? := by
      intro j hj
      have : j - i = (j - (i + 1)) + 1 := by omega
      rw [this, List.getElem?_cons_succ]
    cases m
    · have hi : i < ws.length := by omega
      obtain ⟨ws1, h1, h2, h3⟩ := ih (i + 1) (ws.set i 0) (by simpa using hlen)
      refine ⟨ws1, by simp [maskLoop, hi, h1], by simpa using h2, ?_⟩
      intro j
      rw [h3 j]
      rcases Nat.lt_trichotomy j i with hj | hj | hj
      · have h1 : ¬ (i + 1 ≤ j) := by omega
        have h2 : ¬ (i ≤ j) := by omega
        have h3 : ¬ (i = j) := by omega
        simp [h1, h2, List.getElem?_set, h3]
      · subst hj
        simp [List.getElem?_set, hi]
      · have h1 : i + 1 ≤ j := by omega
        have h2 : i ≤ j := by omega
        have h3 : ¬ (i = j) := by omega
        simp only [h1, h2, true_and, hstep j h1, List.getElem?_set, h3, if_false]
    · obtain ⟨ws1, h1, h2, h3⟩ := ih (i + 1) ws hlen
      refine ⟨ws1, by simp [maskLoop, h1], h2, ?_⟩
      intro j
      rw [h3 j]
      rcases Nat.lt_trichotomy j i with hj | hj | hj
      · have h1 : ¬ (i + 1 ≤ j) := by omega
        have h2 : ¬ (i ≤ j) := by omega
        simp [h1, h2]
      · subst hj
        simp
      · have h1 : i + 1 ≤ j := by omega
        have h2 : i ≤ j := by omega
        simp only [h1, h2, true_and, hstep j h1]

theorem maskWeights_getElem? {α : Type} [Zero α] [One α] (numberDof : Nat) (mask : List Bool)
    (i : Nat) (hi : i < numberDof) :
    (maskWeights numberDof mask : List α)[i]? =
      some (if i < mask.length ∧ mask[i]? = some false then 0 else 1) := by
  have hg : (maskWeights numberDof mask : List α)[i]? =
      some (if mask.getD i true then 1 else 0) := by
    simp [maskWeights, List.getElem?_map, List.getElem?_range hi]
  rw [hg]
  by_cases hlt : i < mask.length
  · rw [List.getD_eq_getElem _ _ hlt, List.getElem?_eq_getElem hlt]
    cases mask[i] <;> simp [hlt]
  · rw [List.getD_eq_default _ _ (by omega)]
    simp [hlt]

theorem maskLoop_eq {α : Type} [Zero α] [One α] (numberDof : Nat) (mask : List Bool)
    (h : mask.length ≤ numberDof) :
    maskLoop mask 0 (List.replicate numberDof (1 : α)) = some (maskWeights numberDof mask) := by
  obtain ⟨ws1, h1, h2, h3⟩ := maskLoop_spec mask 0 (List.replicate numberDof (1 : α))
    (by simpa using h)
  rw [h1]
  congr 1
  apply List.ext_getElem?
  intro j
  rw [h3 j]
  by_cases hj : j < numberDof
  · rw [maskWeights_getElem? numberDof mask j hj]
    by_cases hlt : j < mask.length
    · obtain ⟨b, hb⟩ : ∃ b, mask[j]? = some b := ⟨mask[j], List.getElem?_eq_getElem hlt⟩
      have hb0 : mask[j - 0]? = some b := by simpa using hb
      rw [hb0, hb]
      cases b <;> simp [hlt, hj, List.getElem?_replicate]
    · have hn : mask[j]? = none := List.getElem?_eq_none (by omega)
      have hn0 : mask[j - 0]? = none := by simpa using hn
      rw [hn0, hn]
      simp [hlt, hj, List.getElem?_replicate]
  · have hm : mask[j - 0]? = none := List.getElem?_eq_none (by omega)
    rw [hm]
    simp only [Nat.zero_le, true_and, if_false]
    rw [List.getElem?_eq_none (by simpa using Nat.le_of_not_lt hj),
      List.getElem?_eq_none (by simpa [maskWeights] using Nat.le_of_not_lt hj)]
    simp

end ConfigurationConstraint

/-- C19: for a mask no longer than `numberDof`, the loop of the mask factory makes
no write outside `[0, numberDof)` and returns the weights of length `numberDof`
that are 0 exactly at the indices where the mask has a false entry and 1 elsewhere,
the coordinates beyond the end of the mask included; the constraint created is the
one the weights factory creates from that vector. -/
theorem create_mask_builds_weights {α : Type} [Zero α] [One α] (name : String)
    (robot : pinocchio.Device α) (goal : List α) (mask : List Bool)
    (h : mask.length ≤ robot.numberDof) :
    ConfigurationConstraint.maskLoop mask 0 (List.replicate robot.numberDof (1 : α)) =
      some (maskWeights robot.numberDof mask) ∧
    (maskWeights robot.numberDof mask : List α).length = robot.numberDof ∧
    (∀ i : Nat, i < robot.numberDof →
      (maskWeights robot.numberDof mask : List α)[i]? =
        some (if i < mask.length ∧ mask[i]? = some false then 0 else 1)) ∧
    ConfigurationConstraint.create name robot goal mask =
      ConfigurationConstraint.createFromWeights name robot goal
        (maskWeights robot.numberDof mask) ∧
    ∃ C : ConfigurationConstraint α,
      ConfigurationConstraint.create name robot goal mask = some C ∧
      C.weights_ = maskWeights robot.numberDof mask ∧ C.goal_.vector = goal := by
  have hloop := ConfigurationConstraint.maskLoop_eq (α := α) robot.numberDof mask h
  have hlen : (maskWeights robot.numberDof mask : List α).length = robot.numberDof := by
    simp [maskWeights]
  have hcreate : ConfigurationConstraint.create name robot goal mask =
      ConfigurationConstraint.createFromWeights name robot goal
        (maskWeights robot.numberDof mask) := by
    simp only [ConfigurationConstraint.create, hloop,
      ConfigurationConstraint.createFromWeights]
  refine ⟨hloop, hlen, fun i hi => ConfigurationConstraint.maskWeights_getElem? _ _ i hi,
    hcreate, ?_⟩
  rw [hcreate]
  simp only [ConfigurationConstraint.createFromWeights, ConfigurationConstraint.new, hlen,
    if_true]
  exact ⟨_, rfl, rfl, rfl⟩

theorem create_mask_builds_weights_witness :
    [true, false].length ≤ (exampleRobot (flatSpace 3 : LiegroupSpace Int)).numberDof ∧
    ∃ C : ConfigurationConstraint Int,
      ConfigurationConstraint.create "example" (exampleRobot (flatSpace 3)) [1, 2, 3]
        [true, false] = some C ∧ C.weights_ = [1, 0, 1] := by
  obtain ⟨_, _, _, _, C, hC, hw, _⟩ :=
    create_mask_builds_weights "example" (exampleRobot (flatSpace 3 : LiegroupSpace Int))
      [1, 2, 3] [true, false] (by decide)
  exact ⟨by decide, C, hC, hw.trans (by decide)⟩

end hpp
